import Mathlib

/-!
# Verification of the secure fog simulation core

Shallow embedding of `src/secure_fog_simulation.py` (Hello-H16/Fog_simulation):
the mutable networkx topology graph, the `AI_Monitor` windowed movement
classifier, the `MovementManager` mobility monitor, the `RekeyingManager`,
and the `BroadcastShortestPath.get_path` broadcast router, together with the
simulation setup performed by `run_simulation`.

Python floats (simulated times) are modelled as rationals; Python dicts keyed
by strings are modelled as functions `String → _`; the process-wide
`simulation_log` list and the mutable manager/classifier objects are gathered
into an explicit state record `FogState` threaded through the monitor calls.
Randomness (`random.choice`, `random.choices`) is modelled by explicit choice
parameters: an index into the list being chosen from, reduced modulo its
length.
-/

/-- Edge attributes: `BW` (bandwidth) and `PR` (propagation delay), as passed
to `G.add_edge(..., BW=…, PR=…)` in the source. -/
structure EdgeAttrs where
  BW : ℚ
  PR : ℚ
deriving DecidableEq, Repr

/-- Node attributes as passed to `G.add_node`.  networkx stores an attribute
dict; a node created implicitly by `add_edge` has an empty dict, hence all
fields are optional.  Only `type?` is ever read by the core code. -/
structure NodeAttrs where
  type? : Option String
  IPT? : Option ℚ
  RAM? : Option ℚ
deriving DecidableEq, Repr

/-- An edge of the networkx graph: the two endpoint ids in insertion
orientation plus the attribute dict.  The graph is simple and undirected, so
the pair is semantically unordered (see `pairEqB`). -/
abbrev Edge := String × String × EdgeAttrs

/-- The `networkx.Graph` owned by `yafs.topology.Topology`: node list (with
attributes) and edge list, both in insertion order. -/
structure Graph where
  nodes : List (String × NodeAttrs)
  edges : List Edge
deriving DecidableEq, Repr

/-- Does the stored edge `e` connect the unordered pair `{a, b}`? -/
def pairEqB (e : Edge) (a b : String) : Bool :=
  (e.1 == a && e.2.1 == b) || (e.1 == b && e.2.1 == a)

/-- Do `{a, b}` and `{x, y}` denote the same unordered pair? -/
def pairSameB (a b x y : String) : Bool :=
  (a == x && b == y) || (a == y && b == x)

/-- `x in G` (membership in the networkx node set). -/
def hasNodeB (g : Graph) (x : String) : Bool :=
  g.nodes.any (fun nd => nd.1 == x)

/-- `G.has_edge(a, b)`. -/
def hasEdgeB (g : Graph) (a b : String) : Bool :=
  g.edges.any (fun e => pairEqB e a b)

/-- `G.nodes[x].get('type')`: the `type` attribute of node `x`, `none` when
the node is absent or carries no such attribute. -/
def typeOf (g : Graph) (x : String) : Option String :=
  match g.nodes.find? (fun nd => nd.1 == x) with
  | some nd => nd.2.type?
  | none => none

/-- `G.neighbors(x)`: the other endpoint of every edge incident to `x`, in
edge insertion order (networkx adjacency order). -/
def neighbors (g : Graph) (x : String) : List String :=
  g.edges.filterMap (fun e =>
    if e.1 == x then some e.2.1
    else if e.2.1 == x then some e.1
    else none)

/-- `G.add_node(id, attrs)` (networkx: re-adding an existing node only merges
attributes; the core only ever adds fresh nodes, and `add_edge` adds missing
endpoints with an empty attribute dict). -/
def addNodeIfAbsent (g : Graph) (x : String) : Graph :=
  if hasNodeB g x then g
  else { g with nodes := g.nodes ++ [(x, ⟨none, none, none⟩)] }

/-- `G.add_edge(a, b, attrs)` with networkx `Graph` semantics: missing
endpoints are created, and if an edge between the (unordered) pair already
exists its attribute dict is silently updated — no error is raised and no
second edge is created. -/
def addEdge (g : Graph) (a b : String) (attrs : EdgeAttrs) : Graph :=
  let g1 := addNodeIfAbsent (addNodeIfAbsent g a) b
  if hasEdgeB g1 a b then
    { g1 with edges := g1.edges.map (fun e => if pairEqB e a b then (e.1, e.2.1, attrs) else e) }
  else
    { g1 with edges := g1.edges ++ [(a, b, attrs)] }

/-- `G.remove_edge(a, b)` (the source guards every removal with `has_edge`,
so the missing-edge error branch of networkx is never taken). -/
def removeEdge (g : Graph) (a b : String) : Graph :=
  { g with edges := g.edges.filter (fun e => !(pairEqB e a b)) }

/-- Number of stored edges connecting the unordered pair `{a, b}`. -/
def countPair (es : List Edge) (a b : String) : Nat :=
  es.countP (fun e => pairEqB e a b)

/-- Error vocabulary of the specification's Topology Graph interface (§4.1). -/
inductive GraphError where
  | duplicateEdge
deriving DecidableEq, Repr

/-- Modelled from the spec, §4.1/§7 (not from the source): `addEdge(a,b,attrs)`
"fails with DuplicateEdge if one exists" — the fail-fast edge addition that
the specification prescribes, used to compare against the code's `addEdge`. -/
def addEdgeSpec (g : Graph) (a b : String) (attrs : EdgeAttrs) : Except GraphError Graph :=
  if hasEdgeB g a b then Except.error GraphError.duplicateEdge
  else Except.ok { g with edges := g.edges ++ [(a, b, attrs)] }

/-- A list of node ids is a walk of the graph: every two consecutive nodes are
joined by an edge. -/
def isChainB (g : Graph) : List String → Bool
  | [] => true
  | [_] => true
  | a :: b :: rest => hasEdgeB g a b && isChainB g (b :: rest)

/-- Does the path `p` traverse the (undirected) edge `{a, b}`, i.e. use it
between two consecutive hops? -/
def traversesB (p : List String) (a b : String) : Bool :=
  match p with
  | [] => false
  | [_] => false
  | x :: y :: rest => pairSameB x y a b || traversesB (y :: rest) a b

/-- Breadth-first search working queue: each entry is a reversed path from the
source (head = current endpoint).  `visited` prevents re-enqueueing.  `fuel`
bounds the number of dequeues (generously chosen in `nxShortestPath`). -/
def bfsAux (g : Graph) (dst : String) : Nat → List (List String) → List String → Option (List String)
  | 0, _, _ => none
  | _ + 1, [], _ => none
  | fuel + 1, p :: queue, visited =>
    match p with
    | [] => bfsAux g dst fuel queue visited
    | v :: _ =>
      if v == dst then some p.reverse
      else
        let fresh := (neighbors g v).filter (fun w => !(visited.contains w))
        bfsAux g dst fuel (queue ++ fresh.map (fun w => w :: p)) (visited ++ fresh)

/-- `nx.shortest_path(G, source, target)` on the unweighted graph: a
hop-count shortest path, `none` when the library raises `NetworkXNoPath`
(no path between the two nodes).  The concrete path returned by networkx
among equally short ones depends on library internals; this model fixes a
breadth-first traversal in adjacency insertion order. -/
def nxShortestPath (g : Graph) (src dst : String) : Option (List String) :=
  if hasNodeB g src && hasNodeB g dst then
    bfsAux g dst (g.nodes.length + 2 * g.edges.length + 2) [[src]] [src]
  else none

/-- `BroadcastShortestPath.get_path` (source lines 206–221): for each DES
process of the destination module, in order, compute a shortest path from
`node_src` against the current graph; on `NetworkXNoPath` log a warning and
skip the instance, omitting it from both result lists. -/
def get_path (g : Graph) (node_src : String) (app_name msg_dst : String)
    (alloc_DES : Nat → String) (alloc_module : String → String → List Nat) :
    List (List String) × List Nat :=
  let DES_dst_list := alloc_module app_name msg_dst
  DES_dst_list.foldl
    (fun acc des =>
      match nxShortestPath g node_src (alloc_DES des) with
      | some path => (acc.1 ++ [path], acc.2 ++ [des])
      | none => acc)
    ([], [])

/-- The (path, DES id) pairs produced by `get_path`, kept together; used to
relate the two result lists of `get_path` index by index. -/
def routePairs (g : Graph) (node_src : String) (alloc_DES : Nat → String) :
    List Nat → List (List String × Nat)
  | [] => []
  | des :: rest =>
    match nxShortestPath g node_src (alloc_DES des) with
    | some path => (path, des) :: routePairs g node_src alloc_DES rest
    | none => routePairs g node_src alloc_DES rest

/-! ## SHA-256 (`hashlib.sha256`) and the security helpers -/

/-- `2^32`; SHA-256 works on 32-bit words, modelled as `Nat` mod `M32`. -/
def M32 : Nat := 4294967296

/-- 32-bit modular addition. -/
def add32 (x y : Nat) : Nat := (x + y) % M32

/-- 32-bit right rotation by `n`. -/
def rotr32 (n x : Nat) : Nat := ((x / 2 ^ n) + (x % 2 ^ n) * 2 ^ (32 - n)) % M32

/-- Logical right shift by `n`. -/
def shr32 (n x : Nat) : Nat := x / 2 ^ n

/-- Three-way bitwise xor. -/
def xor3 (x y z : Nat) : Nat := Nat.xor (Nat.xor x y) z

/-- SHA-256 big sigma 0. -/
def bsig0 (x : Nat) : Nat := xor3 (rotr32 2 x) (rotr32 13 x) (rotr32 22 x)

/-- SHA-256 big sigma 1. -/
def bsig1 (x : Nat) : Nat := xor3 (rotr32 6 x) (rotr32 11 x) (rotr32 25 x)

/-- SHA-256 small sigma 0. -/
def ssig0 (x : Nat) : Nat := xor3 (rotr32 7 x) (rotr32 18 x) (shr32 3 x)

/-- SHA-256 small sigma 1. -/
def ssig1 (x : Nat) : Nat := xor3 (rotr32 17 x) (rotr32 19 x) (shr32 10 x)

/-- SHA-256 choice function (the complement of a 32-bit word `x` is
`2^32 - 1 - x`). -/
def chFn (x y z : Nat) : Nat := Nat.xor (Nat.land x y) (Nat.land (M32 - 1 - x % M32) z)

/-- SHA-256 majority function. -/
def majFn (x y z : Nat) : Nat := xor3 (Nat.land x y) (Nat.land x z) (Nat.land y z)

/-- The 64 SHA-256 round constants. -/
def k256 : List Nat :=
  [1116352408, 1899447441, 3049323471, 3921009573, 961987163, 1508970993,
   2453635748, 2870763221, 3624381080, 310598401, 607225278, 1426881987,
   1925078388, 2162078206, 2614888103, 3248222580, 3835390401, 4022224774,
   264347078, 604807628, 770255983, 1249150122, 1555081692, 1996064986,
   2554220882, 2821834349, 2952996808, 3210313671, 3336571891, 3584528711,
   113926993, 338241895, 666307205, 773529912, 1294757372, 1396182291,
   1695183700, 1986661051, 2177026350, 2456956037, 2730485921, 2820302411,
   3259730800, 3345764771, 3516065817, 3600352804, 4094571909, 275423344,
   430227734, 506948616, 659060556, 883997877, 958139571, 1322822218,
   1537002063, 1747873779, 1955562222, 2024104815, 2227730452, 2361852424,
   2428436474, 2756734187, 3204031479, 3329325298]

/-- The eight 32-bit working registers of the SHA-256 compression function. -/
structure H8 where
  a : Nat
  b : Nat
  c : Nat
  d : Nat
  e : Nat
  f : Nat
  g : Nat
  h : Nat

/-- SHA-256 initial hash value. -/
def H0 : H8 :=
  ⟨1779033703, 3144134277, 1013904242, 2773480762, 1359893119, 2600822924, 528734635, 1541459225⟩

/-- SHA-256 message padding: append `0x80`, zero bytes up to 56 mod 64, then
the 64-bit big-endian bit length. -/
def padBytes (msg : List Nat) : List Nat :=
  let L := msg.length
  msg ++ [128] ++ List.replicate ((119 - L % 64) % 64) 0
      ++ (List.range 8).map (fun i => (8 * L) / 2 ^ (8 * (7 - i)) % 256)

/-- A 64-byte chunk as 16 big-endian 32-bit words. -/
def bytesToWords (c : List Nat) : List Nat :=
  (List.range 16).map (fun i =>
    c.getD (4 * i) 0 * 16777216 + c.getD (4 * i + 1) 0 * 65536 +
    c.getD (4 * i + 2) 0 * 256 + c.getD (4 * i + 3) 0)

/-- The 64-word SHA-256 message schedule. -/
def schedule (w16 : List Nat) : List Nat :=
  (List.range 64).foldl
    (fun w t =>
      if t < 16 then w ++ [w16.getD t 0]
      else w ++ [add32 (add32 (ssig1 (w.getD (t - 2) 0)) (w.getD (t - 7) 0))
                       (add32 (ssig0 (w.getD (t - 15) 0)) (w.getD (t - 16) 0))])
    []

/-- One round of the SHA-256 compression function. -/
def compressRound (w : List Nat) (st : H8) (t : Nat) : H8 :=
  let T1 := add32 st.h (add32 (bsig1 st.e)
    (add32 (chFn st.e st.f st.g) (add32 (k256.getD t 0) (w.getD t 0))))
  let T2 := add32 (bsig0 st.a) (majFn st.a st.b st.c)
  ⟨add32 T1 T2, st.a, st.b, st.c, add32 st.d T1, st.e, st.f, st.g⟩

/-- Process one 64-byte chunk. -/
def compressChunk (st : H8) (chunk : List Nat) : H8 :=
  let w := schedule (bytesToWords chunk)
  let r := (List.range 64).foldl (compressRound w) st
  ⟨add32 st.a r.a, add32 st.b r.b, add32 st.c r.c, add32 st.d r.d,
   add32 st.e r.e, add32 st.f r.f, add32 st.g r.g, add32 st.h r.h⟩

/-- SHA-256 digest of a byte sequence, as eight 32-bit words. -/
def sha256words (msg : List Nat) : List Nat :=
  let p := padBytes msg
  let final := (List.range (p.length / 64)).foldl
    (fun st i => compressChunk st ((p.drop (64 * i)).take 64)) H0
  [final.a, final.b, final.c, final.d, final.e, final.f, final.g, final.h]

/-- Lowercase hexadecimal digits, as produced by Python's `hexdigest()`. -/
def hexDigitChars : List Char := "0123456789abcdef".data

/-- A 32-bit word as 8 hex characters (big-endian nibbles). -/
def toHex8 (w : Nat) : List Char :=
  (List.range 8).map (fun i => hexDigitChars.getD (w / 16 ^ (7 - i) % 16) '0')

/-- UTF-8 encoding of one code point (Python `str.encode()`). -/
def charUtf8 (c : Char) : List Nat :=
  let n := c.toNat
  if n < 128 then [n]
  else if n < 2048 then [192 + n / 64, 128 + n % 64]
  else if n < 65536 then [224 + n / 4096, 128 + n / 64 % 64, 128 + n % 64]
  else [240 + n / 262144, 128 + n / 4096 % 64, 128 + n / 64 % 64, 128 + n % 64]

/-- `s.encode()`: the UTF-8 bytes of a string. -/
def utf8Bytes (s : String) : List Nat := (s.data.map charUtf8).flatten

/-- `hashlib.sha256(s.encode()).hexdigest()`. -/
def sha256hex (s : String) : String :=
  String.mk ((sha256words (utf8Bytes s)).map toHex8).flatten

/-- `string.ascii_letters + string.digits`: the 62-character alphabet that
`generate_seed` draws from (source line 20). -/
def asciiAlphabet : String :=
  "abcdefghijklmnopqrstuvwxyzABCDEFGHIJKLMNOPQRSTUVWXYZ0123456789"

/-- `generate_seed(length=8)` (source lines 18–20): 8 independent draws from
the alphanumeric alphabet.  The random draws of `random.choices` are modelled
by the explicit index function `picks`. -/
def generate_seed (picks : Fin 8 → Fin 62) : String :=
  String.mk ((List.finRange 8).map (fun i => asciiAlphabet.data.getD (picks i).val 'a'))

/-- `derive_key(seed)` (source lines 22–24): the SHA-256 hex digest of the
seed truncated to its first 8 characters (`hexdigest()[:8]`). -/
def derive_key (seed : String) : String := String.mk ((sha256hex seed).data.take 8)

/-! ## Classifier, monitors, and simulation state -/

/-- Pointwise update of a string-keyed map (Python `d[k] = v`). -/
def updFn {α : Type} (f : String → α) (k : String) (v : α) : String → α :=
  fun x => if x = k then v else f x

/-- `AI_Monitor.check_node_movement` (source lines 39–53) with
`suspicion_threshold = 3`: append `time` to the node's history, keep only
entries with `time - t < 300`, return `"ATTACKER"` iff more than 3 remain,
together with the updated `move_counts` state. -/
def check_node_movement (move_counts : String → List ℚ) (node_id : String) (time : ℚ) :
    String × (String → List ℚ) :=
  let appended := move_counts node_id ++ [time]
  let pruned := appended.filter (fun t => decide (time - t < 300))
  (if pruned.length > 3 then "ATTACKER" else "NORMAL", updFn move_counts node_id pruned)

/-- One record of the process-wide `simulation_log` list. -/
inductive LogRecord where
  | initial (time : ℚ) (node : String) (location : String)
  | move (time : ℚ) (node : String) (fromLoc : Option String) (toLoc : String) (status : String)
  | rekey (time : ℚ) (seed : String) (key : String)
deriving DecidableEq, Repr

/-- The mutable fields of `MovementManager` (source lines 58–64). -/
structure Manager where
  mobile_nodes : List String
  cluster_nodes : List String
  initialized : Bool
  node_locations : String → Option String

/-- The state mutated by the monitor callbacks: the topology graph, the
movement manager, the classifier's `move_counts`, the `simulation_log`, and
the router's cache-invalidation flag. -/
structure FogState where
  G : Graph
  mgr : Manager
  ai : String → List ℚ
  log : List LogRecord
  invalid_cache_value : Bool

/-- One iteration of the discovery loop of `MovementManager.initialize`
(source lines 66–79) over a node entry. -/
def seedStep (g : Graph) (m : Manager) (nd : String × NodeAttrs) : Manager :=
  if nd.2.type? = some "MOBILE" then
    let m1 := { m with mobile_nodes := m.mobile_nodes ++ [nd.1] }
    match (neighbors g nd.1).find? (fun nb => typeOf g nb == some "CLUSTER") with
    | some c => { m1 with node_locations := updFn m1.node_locations nd.1 (some c) }
    | none => m1
  else if nd.2.type? = some "CLUSTER" then
    { m with cluster_nodes := m.cluster_nodes ++ [nd.1] }
  else m

/-- `MovementManager.initialize` (source lines 66–79): scan the graph's nodes
in order, collecting MOBILE and CLUSTER ids and seeding `node_locations` from
each mobile node's first CLUSTER neighbor. -/
def seedManager (g : Graph) (m : Manager) : Manager :=
  { g.nodes.foldl (seedStep g) m with initialized := true }

/-- The state after the `if not self.initialized: self.initialize(sim)` guard
at the top of `MovementManager.__call__` (source lines 83–84). -/
def mcPostInit (s : FogState) : FogState :=
  if s.mgr.initialized then s else { s with mgr := seedManager s.G s.mgr }

/-- `node_to_move = random.choice(self.mobile_nodes)` (source line 90), the
random draw modelled by index `i` mod the list length. -/
def mcNode (s : FogState) (i : Nat) : String :=
  let m := (mcPostInit s).mgr
  m.mobile_nodes.getD (i % m.mobile_nodes.length) ""

/-- `current_location_id = self.node_locations.get(node_to_move)`
(source line 91). -/
def mcCur (s : FogState) (i : Nat) : Option String :=
  (mcPostInit s).mgr.node_locations (mcNode s i)

/-- `possible_new_locations = [c for c in self.cluster_nodes if c != current_location_id]`
(source line 94); when the current location is `None` every cluster differs
from it, as in Python. -/
def mcPossible (s : FogState) (i : Nat) : List String :=
  (mcPostInit s).mgr.cluster_nodes.filter (fun c => !(some c == mcCur s i))

/-- `new_location_id = random.choice(possible_new_locations)` (source line 97). -/
def mcNew (s : FogState) (i j : Nat) : String :=
  (mcPossible s i).getD (j % (mcPossible s i).length) ""

/-- `MovementManager.__call__` (source lines 81–123): initialize on first
use; no-op when there are no mobile nodes or no alternative cluster;
otherwise classify the move, append a MOVE record, remove the old attachment
edge when the stored location is truthy and the edge exists, add the new
attachment edge with `BW=5, PR=2`, update `node_locations`, and set the
router's `invalid_cache_value` flag. -/
def movementCall (s : FogState) (t : ℚ) (i j : Nat) : FogState :=
  let s1 := mcPostInit s
  if s1.mgr.mobile_nodes.isEmpty then s1
  else if (mcPossible s i).isEmpty then s1
  else
    let node := mcNode s i
    let cur := mcCur s i
    let newLoc := mcNew s i j
    let checked := check_node_movement s1.ai node t
    let g1 :=
      match cur with
      | some c => if (c != "") && hasEdgeB s1.G node c then removeEdge s1.G node c else s1.G
      | none => s1.G
    { G := addEdge g1 node newLoc ⟨5, 2⟩,
      mgr := { s1.mgr with node_locations := updFn s1.mgr.node_locations node (some newLoc) },
      ai := checked.2,
      log := s1.log ++ [LogRecord.move t node cur newLoc checked.1],
      invalid_cache_value := true }

/-- `RekeyingManager.__call__` (source lines 130–145): generate a seed,
derive the key, append a REKEY record.  No other state is touched. -/
def rekeyCall (s : FogState) (t : ℚ) (picks : Fin 8 → Fin 62) : FogState :=
  let seed := generate_seed picks
  { s with log := s.log ++ [LogRecord.rekey t seed (derive_key seed)] }

/-! ## The `run_simulation` setup (source lines 154–171) -/

/-- Attributes of `area_leader` (`type="LEADER", IPT=5000, RAM=4000`). -/
def leaderAttrs : NodeAttrs := ⟨some "LEADER", some 5000, some 4000⟩

/-- Attributes of the cluster nodes (`type="CLUSTER", RAM=10000, IPT=2000`). -/
def clusterAttrs : NodeAttrs := ⟨some "CLUSTER", some 2000, some 10000⟩

/-- Attributes of the mobile nodes (`type="MOBILE", IPT=1000, RAM=1000`). -/
def mobileAttrs : NodeAttrs := ⟨some "MOBILE", some 1000, some 1000⟩

/-- `[f"cluster_{i}" for i in range(1, 4)]`. -/
def clusterNames : List String := ["cluster_1", "cluster_2", "cluster_3"]

/-- `mobile_node_names = [f"iot_{i}" for i in range(5)]`. -/
def mobileNames : List String := ["iot_0", "iot_1", "iot_2", "iot_3", "iot_4"]

/-- The `k`-th mobile node name. -/
def iotName (k : Fin 5) : String := mobileNames.getD k.val ""

/-- `start_cluster = random.choice(cluster_names)` for mobile node `k`: the
random draws of the setup are modelled by the function `starts`. -/
def startCluster (starts : Fin 5 → Fin 3) (k : Fin 5) : String :=
  clusterNames.getD (starts k).val ""

/-- The node list built by the setup's `add_node` calls, in insertion order. -/
def setupNodes : List (String × NodeAttrs) :=
  [("area_leader", leaderAttrs),
   ("cluster_1", clusterAttrs), ("cluster_2", clusterAttrs), ("cluster_3", clusterAttrs),
   ("iot_0", mobileAttrs), ("iot_1", mobileAttrs), ("iot_2", mobileAttrs),
   ("iot_3", mobileAttrs), ("iot_4", mobileAttrs)]

/-- The three static `area_leader`–cluster edges (`BW=10, PR=1`). -/
def leaderEdges : List Edge :=
  [("area_leader", "cluster_1", ⟨10, 1⟩), ("area_leader", "cluster_2", ⟨10, 1⟩),
   ("area_leader", "cluster_3", ⟨10, 1⟩)]

/-- The edge list built by the setup's `add_edge` calls, in insertion order:
the leader–cluster edges followed by each mobile node's starting attachment
edge (`BW=5, PR=2`). -/
def initEdges (starts : Fin 5 → Fin 3) : List Edge :=
  leaderEdges ++
    (List.finRange 5).map (fun k => (iotName k, startCluster starts k, (⟨5, 2⟩ : EdgeAttrs)))

/-- The topology graph right after the setup (net result of source
lines 154–169; all `add_node`/`add_edge` calls there are fresh). -/
def initGraph (starts : Fin 5 → Fin 3) : Graph := ⟨setupNodes, initEdges starts⟩

/-- The INITIAL records appended at time 0, one per mobile node in order
(source line 171). -/
def initLog (starts : Fin 5 → Fin 3) : List LogRecord :=
  (List.finRange 5).map (fun k => LogRecord.initial 0 (iotName k) (startCluster starts k))

/-- A freshly constructed `MovementManager` (source lines 58–64). -/
def mgr0 : Manager := ⟨[], [], false, fun _ => none⟩

/-- The complete simulation state right after setup, before any monitor has
fired. -/
def initState (starts : Fin 5 → Fin 3) : FogState :=
  ⟨initGraph starts, mgr0, fun _ => [], initLog starts, false⟩

/-- One monitor callback dispatched by the driver: a `MovementManager` call
or a `RekeyingManager` call, at some simulated time, with its random draws.
`get_path` reads but never writes this state, so router calls need no case
here. -/
inductive Step : FogState → FogState → Prop where
  | move (s : FogState) (t : ℚ) (i j : Nat) : Step s (movementCall s t i j)
  | rekey (s : FogState) (t : ℚ) (picks : Fin 8 → Fin 62) : Step s (rekeyCall s t picks)

/-- States reachable from the `run_simulation` setup by monitor callbacks. -/
def Reachable (starts : Fin 5 → Fin 3) (s : FogState) : Prop :=
  Relation.ReflTransGen Step (initState starts) s

/-! ## Replaying the event log (placement reconstruction) -/

/-- Fold one record into the per-node "last known location" map used to
replay the log (most recent record first). -/
def seenUpd (seen : List (String × String)) : LogRecord → List (String × String)
  | LogRecord.initial _ n loc => (n, loc) :: seen
  | LogRecord.move _ n _ toLoc _ => (n, toLoc) :: seen
  | LogRecord.rekey _ _ _ => seen

/-- Is one record consistent with the placement map accumulated so far?
An INITIAL record must carry time 0; a MOVE record's `from` field must equal
the location established by the node's most recent earlier record (so in
particular the node's first record cannot be a MOVE). -/
def recOK (seen : List (String × String)) : LogRecord → Bool
  | LogRecord.initial t _ _ => t == 0
  | LogRecord.move _ n fromLoc _ _ =>
    match seen.lookup n with
    | some c => fromLoc == some c
    | none => false
  | LogRecord.rekey _ _ _ => true

/-- Check a log suffix against an accumulated placement map. -/
def chainOKAux : List (String × String) → List LogRecord → Bool
  | _, [] => true
  | seen, r :: rest => recOK seen r && chainOKAux (seenUpd seen r) rest

/-- The whole log is placement-consistent: each node's first record is an
INITIAL at time 0, and every MOVE's `from` field matches the location
established by that node's most recent earlier record. -/
def chainOK (log : List LogRecord) : Bool := chainOKAux [] log

/-- The placement map after replaying a whole log. -/
def seenFold (log : List LogRecord) : List (String × String) :=
  log.foldl seenUpd []

/-- The classifier's `move_counts` state after a sequence of
`check_node_movement` calls for a single node, starting from the fresh
`AI_Monitor` state (`move_counts = {}`). -/
def runSeq (node : String) (ts : List ℚ) : String → List ℚ :=
  ts.foldl (fun mc t => (check_node_movement mc node t).2) (fun _ => [])

/-! ## The reachable-state invariant -/

/-- The location the mobility subsystem currently attributes to mobile node
`k`: the `node_locations` entry once the manager is initialized, the node's
starting cluster before the one-shot initialization has run. -/
def locOf (starts : Fin 5 → Fin 3) (s : FogState) (k : Fin 5) : Option String :=
  if s.mgr.initialized then s.mgr.node_locations (iotName k) else some (startCluster starts k)

/-- `d` is a CLUSTER-attachment neighbor of node `n`: an edge `{n, d}` exists
and `d` is typed CLUSTER. -/
def attachB (g : Graph) (n d : String) : Bool :=
  hasEdgeB g n d && (typeOf g d == some "CLUSTER")

/-- The inductive invariant of the states reachable from the
`run_simulation` setup: the node set never changes; before initialization the
manager and graph are still pristine; after it the discovered node lists are
exactly the setup's; every mobile node has exactly one CLUSTER-attachment
edge, recorded consistently in the Location Map; no unordered pair of nodes
carries two edges; and the event log starts with the INITIAL records and
replays consistently, its final placement agreeing with the Location Map. -/
structure FogInv (starts : Fin 5 → Fin 3) (s : FogState) : Prop where
  nodes_eq : s.G.nodes = setupNodes
  uninit_mgr : s.mgr.initialized = false → s.mgr = mgr0 ∧ s.G = initGraph starts
  init_mobile : s.mgr.initialized = true → s.mgr.mobile_nodes = mobileNames
  init_cluster : s.mgr.initialized = true → s.mgr.cluster_nodes = clusterNames
  attach_one : ∀ k : Fin 5, ∃ c, c ∈ clusterNames ∧ locOf starts s k = some c ∧
    ∀ d : String, attachB s.G (iotName k) d = true ↔ d = c
  at_most_one : ∀ a b : String, countPair s.G.edges a b ≤ 1
  log_shape : ∃ rest, s.log = initLog starts ++ rest
  seen_sync : ∀ k : Fin 5, (seenFold s.log).lookup (iotName k) = locOf starts s k
  chain_ok : chainOK s.log = true

/-- The Location Map produced by the one-shot initialization on the setup
topology (the fold of `seedStep` in computed form; see
`seedManager_initGraph`). -/
def seededLoc (starts : Fin 5 → Fin 3) : String → Option String := fun n =>
  if n = "iot_4" then some (startCluster starts 4)
  else if n = "iot_3" then some (startCluster starts 3)
  else if n = "iot_2" then some (startCluster starts 2)
  else if n = "iot_1" then some (startCluster starts 1)
  else if n = "iot_0" then some (startCluster starts 0)
  else none

/-! ## Concrete fixtures used in witnesses and counterexamples -/

/-- All-mobiles-at-`cluster_1` start assignment, used by the witnesses. -/
def startsW : Fin 5 → Fin 3 := fun _ => 0

/-- Witness allocation: the single destination DES process 0 runs on
`cluster_1`. -/
def allocDW : Nat → String := fun _ => "cluster_1"

/-- Witness module allocation: one deployed destination instance. -/
def allocMW : String → String → List Nat := fun _ _ => [0]

/-- The path that `get_path` returns in the C1 witness scenario. -/
def pathW : List String := ["iot_0", "cluster_2", "area_leader", "cluster_1"]

/-- C4 witness graph: the leader joined to `cluster_1`, plus an isolated node
`lonely` with no path to the leader. -/
def gW4 : Graph :=
  ⟨[("area_leader", leaderAttrs), ("cluster_1", clusterAttrs), ("lonely", clusterAttrs)],
   [("area_leader", "cluster_1", ⟨10, 1⟩)]⟩

/-- C4 witness DES allocation: instance 0 on `cluster_1`, instance 1 on the
unreachable `lonely`. -/
def allocDW4 : Nat → String := fun des => if des == 0 then "cluster_1" else "lonely"

/-- C4 witness module allocation: two deployed destination instances. -/
def allocMW4 : String → String → List Nat := fun _ _ => [0, 1]

/-- C10 witness state: an initialized manager that knows mobile node `m1`
and cluster `c1`, but `node_locations` has no entry for `m1`. -/
def sW10 : FogState :=
  ⟨⟨[("m1", mobileAttrs), ("c1", clusterAttrs)], []⟩,
   ⟨["m1"], ["c1"], true, fun _ => none⟩, fun _ => [], [], false⟩

/-- C8 counterexample state: an uninitialized manager over a topology with a
single mobile node attached to the only cluster (no alternative target
exists, so the call takes the no-op branch after initializing). -/
def sC8 : FogState :=
  ⟨⟨[("c1", clusterAttrs), ("m1", mobileAttrs)], [("m1", "c1", ⟨5, 2⟩)]⟩,
   mgr0, fun _ => [], [], false⟩

/-- C8 amended-claim witness state: an initialized manager with no mobile
nodes over a one-cluster topology. -/
def sW8 : FogState :=
  ⟨⟨[("c1", clusterAttrs)], []⟩, ⟨[], ["c1"], true, fun _ => none⟩, fun _ => [], [], false⟩

/-- C5 counterexample graph: two nodes already joined by an edge. -/
def gC5 : Graph := ⟨[("a", leaderAttrs), ("b", clusterAttrs)], [("a", "b", ⟨1, 1⟩)]⟩

/-! ## Lemmas: graph and breadth-first search soundness -/

theorem hasEdgeB_comm (g : Graph) (a b : String) : hasEdgeB g a b = hasEdgeB g b a := by
  unfold hasEdgeB
  congr 1
  funext e
  unfold pairEqB
  exact Bool.or_comm _ _

theorem neighbors_hasEdge {g : Graph} {v w : String} (h : w ∈ neighbors g v) :
    hasEdgeB g v w = true := by
  unfold neighbors at h
  rw [List.mem_filterMap] at h
  obtain ⟨e, he, hmap⟩ := h
  unfold hasEdgeB
  rw [List.any_eq_true]
  refine ⟨e, he, ?_⟩
  unfold pairEqB
  by_cases h1 : e.1 == v
  · simp only [h1, if_pos] at hmap
    simp only [Option.some.injEq] at hmap
    simp [h1, hmap]
  · simp only [h1, if_neg, Bool.false_eq_true, if_false] at hmap
    by_cases h2 : e.2.1 == v
    · simp only [h2, if_pos, Option.some.injEq] at hmap
      simp [h2, hmap]
    · simp [h2] at hmap

theorem isChainB_append_edge {g : Graph} :
    ∀ {xs : List String} {v w : String}, isChainB g xs = true → xs.getLast? = some v →
      hasEdgeB g v w = true → isChainB g (xs ++ [w]) = true := by
  intro xs
  induction xs with
  | nil => intro v w _ hlast _; simp at hlast
  | cons a rest ih =>
    intro v w hchain hlast hedge
    cases rest with
    | nil =>
      simp only [List.getLast?_singleton, Option.some.injEq] at hlast
      subst hlast
      simp only [List.singleton_append, isChainB]
      simp [hedge]
    | cons b rest' =>
      simp only [isChainB, Bool.and_eq_true] at hchain
      have hlast' : (b :: rest').getLast? = some v := by
        rw [List.getLast?_cons_cons] at hlast
        exact hlast
      have := ih hchain.2 hlast' hedge
      simp only [List.cons_append, isChainB, Bool.and_eq_true]
      exact ⟨hchain.1, this⟩

theorem bfsAux_sound (g : Graph) (dst src : String) :
    ∀ (fuel : Nat) (queue : List (List String)) (visited : List String) (path : List String),
      (∀ p ∈ queue, p ≠ [] ∧ p.getLast? = some src ∧ isChainB g p.reverse = true) →
      bfsAux g dst fuel queue visited = some path →
      isChainB g path = true ∧ path.head? = some src ∧ path.getLast? = some dst := by
  intro fuel
  induction fuel with
  | zero => intro queue visited path _ h; simp [bfsAux] at h
  | succ n ih =>
    intro queue visited path hinv h
    cases queue with
    | nil => simp [bfsAux] at h
    | cons p rest =>
      cases p with
      | nil => exact ih rest visited path (fun q hq => hinv q (List.mem_cons_of_mem _ hq)) h
      | cons v ptail =>
        obtain ⟨hne, hlast, hchain⟩ := hinv (v :: ptail) (List.mem_cons_self _ _)
        by_cases hv : v == dst
        · simp only [bfsAux, hv, if_pos, Option.some.injEq] at h
          subst h
          refine ⟨hchain, ?_, ?_⟩
          · rw [List.head?_reverse]; exact hlast
          · rw [List.getLast?_reverse]
            simp only [List.head?_cons, Option.some.injEq]
            exact eq_of_beq hv
        · simp only [bfsAux, hv, Bool.false_eq_true, if_false] at h
          refine ih _ _ path ?_ h
          intro q hq
          rw [List.mem_append] at hq
          rcases hq with hq | hq
          · exact hinv q (List.mem_cons_of_mem _ hq)
          · rw [List.mem_map] at hq
            obtain ⟨w, hw, rfl⟩ := hq
            have hnb : w ∈ neighbors g v := List.mem_of_mem_filter hw
            refine ⟨List.cons_ne_nil _ _, ?_, ?_⟩
            · rw [List.getLast?_cons_cons]; exact hlast
            · rw [List.reverse_cons]
              refine isChainB_append_edge hchain ?_ (neighbors_hasEdge hnb)
              rw [List.getLast?_reverse]
              simp

theorem nxShortestPath_sound {g : Graph} {src dst : String} {path : List String}
    (h : nxShortestPath g src dst = some path) :
    isChainB g path = true ∧ path.head? = some src ∧ path.getLast? = some dst := by
  unfold nxShortestPath at h
  by_cases hn : hasNodeB g src && hasNodeB g dst
  · rw [if_pos hn] at h
    refine bfsAux_sound g dst src _ [[src]] [src] path ?_ h
    intro p hp
    simp only [List.mem_singleton] at hp
    subst hp
    exact ⟨List.cons_ne_nil _ _, rfl, rfl⟩
  · rw [if_neg hn] at h
    exact absurd h (by simp)

/-! ## Lemmas: the broadcast router's result structure -/

theorem routePairs_mem {g : Graph} {node_src : String} {alloc_DES : Nat → String} :
    ∀ {l : List Nat} {pr : List String × Nat}, pr ∈ routePairs g node_src alloc_DES l →
      nxShortestPath g node_src (alloc_DES pr.2) = some pr.1 := by
  intro l
  induction l with
  | nil => intro pr h; simp [routePairs] at h
  | cons des rest ih =>
    intro pr h
    unfold routePairs at h
    cases hsp : nxShortestPath g node_src (alloc_DES des) with
    | some path =>
      rw [hsp] at h
      rcases List.mem_cons.mp h with h | h
      · subst h; exact hsp
      · exact ih h
    | none =>
      rw [hsp] at h
      exact ih h

theorem get_path_foldl (g : Graph) (node_src : String) (alloc_DES : Nat → String) :
    ∀ (l : List Nat) (acc : List (List String) × List Nat),
      l.foldl
        (fun acc des =>
          match nxShortestPath g node_src (alloc_DES des) with
          | some path => (acc.1 ++ [path], acc.2 ++ [des])
          | none => acc)
        acc =
      (acc.1 ++ (routePairs g node_src alloc_DES l).map Prod.fst,
       acc.2 ++ (routePairs g node_src alloc_DES l).map Prod.snd) := by
  intro l
  induction l with
  | nil => intro acc; simp [routePairs]
  | cons des rest ih =>
    intro acc
    rw [List.foldl_cons]
    unfold routePairs
    cases hsp : nxShortestPath g node_src (alloc_DES des) with
    | some path => rw [ih]; simp
    | none => rw [ih]

theorem get_path_eq (g : Graph) (node_src app_name msg_dst : String)
    (alloc_DES : Nat → String) (alloc_module : String → String → List Nat) :
    get_path g node_src app_name msg_dst alloc_DES alloc_module =
      ((routePairs g node_src alloc_DES (alloc_module app_name msg_dst)).map Prod.fst,
       (routePairs g node_src alloc_DES (alloc_module app_name msg_dst)).map Prod.snd) := by
  unfold get_path
  rw [get_path_foldl]
  simp

theorem routePairs_snd_filter (g : Graph) (node_src : String) (alloc_DES : Nat → String) :
    ∀ l : List Nat,
      (routePairs g node_src alloc_DES l).map Prod.snd =
        l.filter (fun des => (nxShortestPath g node_src (alloc_DES des)).isSome) := by
  intro l
  induction l with
  | nil => simp [routePairs]
  | cons des rest ih =>
    unfold routePairs
    cases hsp : nxShortestPath g node_src (alloc_DES des) with
    | some path => simp [List.filter_cons, hsp, ih]
    | none => simp [List.filter_cons, hsp, ih]

theorem routePairs_fst_filterMap (g : Graph) (node_src : String) (alloc_DES : Nat → String) :
    ∀ l : List Nat,
      (routePairs g node_src alloc_DES l).map Prod.fst =
        l.filterMap (fun des => nxShortestPath g node_src (alloc_DES des)) := by
  intro l
  induction l with
  | nil => simp [routePairs]
  | cons des rest ih =>
    unfold routePairs
    cases hsp : nxShortestPath g node_src (alloc_DES des) with
    | some path => simp [List.filterMap_cons, hsp, ih]
    | none => simp [List.filterMap_cons, hsp, ih]

theorem traverses_hasEdge {g : Graph} {a b : String} :
    ∀ {p : List String}, traversesB p a b = true → isChainB g p = true →
      hasEdgeB g a b = true := by
  intro p
  induction p with
  | nil => intro h _; simp [traversesB] at h
  | cons x rest ih =>
    intro htr hchain
    cases rest with
    | nil => simp [traversesB] at htr
    | cons y rest' =>
      simp only [traversesB, Bool.or_eq_true] at htr
      simp only [isChainB, Bool.and_eq_true] at hchain
      rcases htr with htr | htr
      · unfold pairSameB at htr
        rw [Bool.or_eq_true] at htr
        rcases htr with h | h
        · rw [Bool.and_eq_true] at h
          rw [← eq_of_beq h.1, ← eq_of_beq h.2]
          exact hchain.1
        · rw [Bool.and_eq_true] at h
          rw [← eq_of_beq h.1, ← eq_of_beq h.2, hasEdgeB_comm]
          exact hchain.1
      · exact ih htr hchain.2

/-! ## Claim C1 -/

/-- C1: in every execution where Mobility Monitor invocations and Router
calls alternate in simulated-time order, every path returned by the Broadcast
Router's `get_path` traverses only edges present in the topology graph at the
time of the call, and a Router call that follows a move never returns a path
traversing an edge that the move removed.  Stated pointwise over an arbitrary
state `s`: (1) every returned path is a walk of the graph it was computed
against, and (2) any edge present before a `MovementManager` call and absent
after it (in particular the removed attachment edge) is traversed by no path
of a subsequent Router call.  Since each monitor callback runs atomically and
`get_path` always reads the current graph, this covers every alternating
execution. -/
theorem router_paths_current_edges (s : FogState) (t : ℚ) (i j : Nat)
    (src app_name msg_dst : String) (alloc_DES : Nat → String)
    (alloc_module : String → String → List Nat) :
    (∀ p ∈ (get_path s.G src app_name msg_dst alloc_DES alloc_module).1,
        isChainB s.G p = true) ∧
    (∀ a b : String, hasEdgeB s.G a b = true →
      hasEdgeB (movementCall s t i j).G a b = false →
      ∀ p ∈ (get_path (movementCall s t i j).G src app_name msg_dst alloc_DES alloc_module).1,
        traversesB p a b = false) := by
  have key : ∀ g : Graph, ∀ p ∈ (get_path g src app_name msg_dst alloc_DES alloc_module).1,
      isChainB g p = true := by
    intro g p hp
    rw [get_path_eq] at hp
    rw [List.mem_map] at hp
    obtain ⟨pr, hpr, rfl⟩ := hp
    exact (nxShortestPath_sound (routePairs_mem hpr)).1
  refine ⟨key s.G, ?_⟩
  intro a b _ hpost p hp
  by_contra h
  rw [Bool.not_eq_false] at h
  have hchain := key (movementCall s t i j).G p hp
  have hedge := traverses_hasEdge h hchain
  rw [hedge] at hpost
  exact Bool.noConfusion hpost

set_option maxRecDepth 10000 in
/-- Witness for C1: from the all-at-`cluster_1` setup, the first monitor call
moves `iot_0` to `cluster_2`, removing edge `{iot_0, cluster_1}`; the router
then returns the path `iot_0 → cluster_2 → area_leader → cluster_1`, which
does not traverse the removed edge. -/
theorem router_paths_current_edges_witness :
    hasEdgeB (initState startsW).G "iot_0" "cluster_1" = true ∧
    hasEdgeB (movementCall (initState startsW) 5 0 0).G "iot_0" "cluster_1" = false ∧
    pathW ∈ (get_path (movementCall (initState startsW) 5 0 0).G "iot_0" "SecureApp"
      "ClusterLeader" allocDW allocMW).1 ∧
    traversesB pathW "iot_0" "cluster_1" = false :=
  ⟨by decide, by decide, by decide,
   (router_paths_current_edges (initState startsW) 5 0 0 "iot_0" "SecureApp" "ClusterLeader"
      allocDW allocMW).2 "iot_0" "cluster_1" (by decide) (by decide) pathW (by decide)⟩

/-! ## Claim C4 -/

/-- C4: for every source node and ordered destination-instance sequence,
`get_path` returns two sequences of equal length; instances are processed in
input order (the resolved ids are exactly the input filtered to those with a
path, and the paths are the corresponding shortest-path results, both in input
order); an instance with no path is skipped — the call is total — and omitted
from both outputs; and at each index the path is a walk of the current graph
from the source ending at the node hosting the resolved instance. -/
theorem broadcast_index_correspondence (g : Graph) (node_src app_name msg_dst : String)
    (alloc_DES : Nat → String) (alloc_module : String → String → List Nat) :
    (get_path g node_src app_name msg_dst alloc_DES alloc_module).1.length =
      (get_path g node_src app_name msg_dst alloc_DES alloc_module).2.length ∧
    (get_path g node_src app_name msg_dst alloc_DES alloc_module).2 =
      (alloc_module app_name msg_dst).filter
        (fun des => (nxShortestPath g node_src (alloc_DES des)).isSome) ∧
    (get_path g node_src app_name msg_dst alloc_DES alloc_module).1 =
      (alloc_module app_name msg_dst).filterMap
        (fun des => nxShortestPath g node_src (alloc_DES des)) ∧
    ∀ (i : Nat) (hi : i < (get_path g node_src app_name msg_dst alloc_DES alloc_module).1.length)
      (hi2 : i < (get_path g node_src app_name msg_dst alloc_DES alloc_module).2.length),
      isChainB g ((get_path g node_src app_name msg_dst alloc_DES alloc_module).1.get ⟨i, hi⟩) = true ∧
      ((get_path g node_src app_name msg_dst alloc_DES alloc_module).1.get ⟨i, hi⟩).head? =
        some node_src ∧
      ((get_path g node_src app_name msg_dst alloc_DES alloc_module).1.get ⟨i, hi⟩).getLast? =
        some (alloc_DES ((get_path g node_src app_name msg_dst alloc_DES alloc_module).2.get ⟨i, hi2⟩)) := by
  rw [get_path_eq]
  refine ⟨by simp, routePairs_snd_filter g node_src alloc_DES _,
    routePairs_fst_filterMap g node_src alloc_DES _, ?_⟩
  intro i hi hi2
  simp only [List.length_map] at hi
  have hmem : (routePairs g node_src alloc_DES (alloc_module app_name msg_dst)).get ⟨i, hi⟩ ∈
      routePairs g node_src alloc_DES (alloc_module app_name msg_dst) :=
    List.get_mem _ _ _
  have hsp := routePairs_mem hmem
  have hsound := nxShortestPath_sound hsp
  simp only [List.get_eq_getElem, List.getElem_map]
  exact hsound

set_option maxRecDepth 10000 in
/-- Witness for C4: routing from `area_leader` to two instances, one on the
connected `cluster_1` and one on the isolated node `lonely`, skips the
unreachable instance and keeps index correspondence for the remaining one. -/
theorem broadcast_index_correspondence_witness :
    (get_path gW4 "area_leader" "SecureApp" "ClusterLeader" allocDW4 allocMW4).1.length =
      (get_path gW4 "area_leader" "SecureApp" "ClusterLeader" allocDW4 allocMW4).2.length ∧
    (get_path gW4 "area_leader" "SecureApp" "ClusterLeader" allocDW4 allocMW4).2 = [0] ∧
    (get_path gW4 "area_leader" "SecureApp" "ClusterLeader" allocDW4 allocMW4).1 =
      [["area_leader", "cluster_1"]] ∧
    (0 : Nat) < (get_path gW4 "area_leader" "SecureApp" "ClusterLeader" allocDW4 allocMW4).1.length ∧
    isChainB gW4 ((get_path gW4 "area_leader" "SecureApp" "ClusterLeader" allocDW4 allocMW4).1.get
      ⟨0, by decide⟩) = true := by
  refine ⟨(broadcast_index_correspondence gW4 "area_leader" "SecureApp" "ClusterLeader"
    allocDW4 allocMW4).1, by decide, by decide, by decide, ?_⟩
  exact ((broadcast_index_correspondence gW4 "area_leader" "SecureApp" "ClusterLeader"
    allocDW4 allocMW4).2.2.2 0 (by decide) (by decide)).1

/-! ## Claim C2 -/

theorem check_state_at_node (mc : String → List ℚ) (node : String) (t : ℚ) :
    (check_node_movement mc node t).2 node =
      (mc node ++ [t]).filter (fun u => decide (t - u < 300)) := by
  unfold check_node_movement updFn
  simp

theorem runSeq_window (node : String) :
    ∀ (ts : List ℚ) (m : ℚ), List.Chain' (· ≤ ·) (ts ++ [m]) →
      runSeq node (ts ++ [m]) node = (ts ++ [m]).filter (fun u => decide (m - u < 300)) := by
  intro ts
  induction ts using List.reverseRecOn with
  | nil =>
    intro m _
    unfold runSeq
    simp only [List.nil_append, List.foldl_cons, List.foldl_nil]
    rw [check_state_at_node]
    simp
  | append_singleton ts' m' ih =>
    intro m hchain
    rw [List.chain'_append] at hchain
    obtain ⟨hc1, _, hlink⟩ := hchain
    have hle : m' ≤ m := by
      refine hlink m' ?_ m ?_ <;> simp
    have hstep : runSeq node ((ts' ++ [m']) ++ [m]) =
        (check_node_movement (runSeq node (ts' ++ [m'])) node m).2 := by
      unfold runSeq
      rw [List.foldl_append]
      rfl
    rw [hstep, check_state_at_node, ih m' hc1]
    have key : List.filter (fun u => decide (m - u < 300))
        (List.filter (fun u => decide (m' - u < 300)) (ts' ++ [m'])) =
        List.filter (fun u => decide (m - u < 300)) (ts' ++ [m']) := by
      rw [List.filter_filter]
      refine List.filter_congr ?_
      intro u _
      by_cases h : m - u < 300
      · have h' : m' - u < 300 := by linarith
        simp [h, h']
      · simp [h]
    calc List.filter (fun u => decide (m - u < 300))
          (List.filter (fun u => decide (m' - u < 300)) (ts' ++ [m']) ++ [m])
        = List.filter (fun u => decide (m - u < 300))
            (List.filter (fun u => decide (m' - u < 300)) (ts' ++ [m'])) ++
          List.filter (fun u => decide (m - u < 300)) [m] := List.filter_append _ _
      _ = List.filter (fun u => decide (m - u < 300)) (ts' ++ [m']) ++
          List.filter (fun u => decide (m - u < 300)) [m] := by rw [key]
      _ = List.filter (fun u => decide (m - u < 300)) ((ts' ++ [m']) ++ [m]) :=
          (List.filter_append _ _).symm

/-- C2: for every node and every non-decreasing sequence of classify calls
for that node, the final call appends `now` to the node's movement history,
drops every stored timestamp `t` with `now - t ≥ 300` (so the history becomes
exactly the calls falling in the trailing 300-unit window, the new `now`
included), returns `"ATTACKER"` exactly when strictly more than 3 entries
remain and `"NORMAL"` otherwise, and leaves other nodes' histories untouched. -/
theorem classifier_window_threshold (node : String) (times : List ℚ) (now : ℚ)
    (hsort : List.Chain' (· ≤ ·) (times ++ [now])) :
    (check_node_movement (runSeq node times) node now).2 node =
      (times ++ [now]).filter (fun u => decide (now - u < 300)) ∧
    (check_node_movement (runSeq node times) node now).1 =
      (if ((times ++ [now]).filter (fun u => decide (now - u < 300))).length > 3
        then "ATTACKER" else "NORMAL") ∧
    ∀ other : String, other ≠ node →
      (check_node_movement (runSeq node times) node now).2 other = runSeq node times other := by
  have hstep : (check_node_movement (runSeq node times) node now).2 =
      runSeq node (times ++ [now]) := by
    unfold runSeq
    rw [List.foldl_append]
    rfl
  have hwin := runSeq_window node times now hsort
  have hpruned : (runSeq node times node ++ [now]).filter (fun u => decide (now - u < 300)) =
      (times ++ [now]).filter (fun u => decide (now - u < 300)) := by
    rw [← check_state_at_node (runSeq node times) node now, hstep]
    exact hwin
  refine ⟨by rw [hstep]; exact hwin, ?_, ?_⟩
  · unfold check_node_movement
    simp only []
    rw [hpruned]
  · intro other hne
    unfold check_node_movement updFn
    simp [hne]

/-- Witness for C2 (the spec's end-to-end scenario with all four moves inside
one window): three earlier classify calls and a fourth at the same time leave
four entries in the 300-unit window, so the fourth call returns `"ATTACKER"`. -/
theorem classifier_window_threshold_witness :
    List.Chain' (· ≤ ·) ([(0 : ℚ), 0, 0] ++ [0]) ∧
    (check_node_movement (runSeq "iot_0" [0, 0, 0]) "iot_0" 0).2 "iot_0" = [0, 0, 0, 0] ∧
    (check_node_movement (runSeq "iot_0" [0, 0, 0]) "iot_0" 0).1 = "ATTACKER" := by
  have hsort : List.Chain' (· ≤ ·) ([(0 : ℚ), 0, 0] ++ [0]) := by simp
  have h := classifier_window_threshold "iot_0" [0, 0, 0] 0 hsort
  have hfilter : ([(0 : ℚ), 0, 0] ++ [0]).filter (fun u => decide ((0 : ℚ) - u < 300)) =
      [0, 0, 0, 0] := by
    have h0 : decide ((0 : ℚ) - 0 < 300) = true := by simp
    simp [List.filter, h0]
  refine ⟨hsort, ?_, ?_⟩
  · rw [h.1, hfilter]
  · rw [h.2.1, hfilter]
    simp

/-! ## Claim C7 -/

theorem sha256words_length (msg : List Nat) : (sha256words msg).length = 8 := by
  simp [sha256words]

theorem toHex8_length (w : Nat) : (toHex8 w).length = 8 := by
  simp [toHex8]

theorem sha256hex_data_length (s : String) : (sha256hex s).data.length = 64 := by
  show ((sha256words (utf8Bytes s)).map toHex8).flatten.length = 64
  rw [List.length_flatten]
  have h8 : ((sha256words (utf8Bytes s)).map toHex8).map List.length =
      (sha256words (utf8Bytes s)).map (fun _ => 8) := by
    rw [List.map_map]
    exact List.map_congr_left (fun w _ => toHex8_length w)
  rw [h8, List.map_const', List.sum_replicate, sha256words_length]
  norm_num

theorem hexDigit_getD_mem (n : Nat) : hexDigitChars.getD n '0' ∈ hexDigitChars := by
  by_cases h : n < hexDigitChars.length
  · rw [List.getD_eq_getElem _ _ h]
    exact List.getElem_mem h
  · rw [List.getD_eq_default _ _ (Nat.le_of_not_lt h)]
    decide

theorem sha256hex_chars {s : String} {c : Char} (hc : c ∈ (sha256hex s).data) :
    c ∈ hexDigitChars := by
  have hc' : c ∈ ((sha256words (utf8Bytes s)).map toHex8).flatten := hc
  rw [List.mem_flatten] at hc'
  obtain ⟨blk, hblk, hcblk⟩ := hc'
  rw [List.mem_map] at hblk
  obtain ⟨w, _, rfl⟩ := hblk
  simp only [toHex8, List.mem_map] at hcblk
  obtain ⟨i, _, rfl⟩ := hcblk
  exact hexDigit_getD_mem _

theorem generate_seed_length (picks : Fin 8 → Fin 62) :
    (generate_seed picks).data.length = 8 := by
  simp [generate_seed]

theorem generate_seed_alnum (picks : Fin 8 → Fin 62) :
    ((generate_seed picks).data.all (fun c => decide (c ∈ asciiAlphabet.data))) = true := by
  rw [List.all_eq_true]
  intro c hc
  simp only [generate_seed, List.mem_map] at hc
  obtain ⟨i, _, rfl⟩ := hc
  rw [decide_eq_true_eq]
  have hlt : ((picks i) : Nat) < asciiAlphabet.data.length := by
    have h62 : asciiAlphabet.data.length = 62 := by decide
    rw [h62]
    exact (picks i).2
  rw [List.getD_eq_getElem _ _ hlt]
  exact List.getElem_mem hlt

/-- C7: every Rekeying Monitor invocation appends exactly one REKEY record
`{time, seed, key}` to the event log and mutates nothing else — not the
graph, the movement manager, the classifier state, or the cache flag.  The
seed is an alphanumeric string of length exactly 8, and the key is exactly
the first 8 (hexadecimal) characters of the SHA-256 hex digest of the seed. -/
theorem rekey_appends_single_record (s : FogState) (t : ℚ) (picks : Fin 8 → Fin 62) :
    (rekeyCall s t picks).log =
      s.log ++ [LogRecord.rekey t (generate_seed picks) (derive_key (generate_seed picks))] ∧
    (rekeyCall s t picks).G = s.G ∧
    (rekeyCall s t picks).mgr = s.mgr ∧
    (rekeyCall s t picks).ai = s.ai ∧
    (rekeyCall s t picks).invalid_cache_value = s.invalid_cache_value ∧
    (generate_seed picks).data.length = 8 ∧
    ((generate_seed picks).data.all (fun c => decide (c ∈ asciiAlphabet.data))) = true ∧
    derive_key (generate_seed picks) =
      String.mk ((sha256hex (generate_seed picks)).data.take 8) ∧
    (derive_key (generate_seed picks)).data.length = 8 ∧
    ((derive_key (generate_seed picks)).data.all (fun c => decide (c ∈ hexDigitChars))) = true := by
  refine ⟨rfl, rfl, rfl, rfl, rfl, generate_seed_length picks, generate_seed_alnum picks,
    rfl, ?_, ?_⟩
  · show ((sha256hex (generate_seed picks)).data.take 8).length = 8
    rw [List.length_take, sha256hex_data_length]
    decide
  · rw [List.all_eq_true]
    intro c hc
    have hsub : c ∈ (sha256hex (generate_seed picks)).data :=
      List.take_subset _ _ hc
    rw [decide_eq_true_eq]
    exact sha256hex_chars hsub

set_option maxRecDepth 100000 in
/-- SHA-256 sanity check against the standard test vector for `"abc"`. -/
theorem sha256hex_abc :
    sha256hex "abc" = "ba7816bf8f01cfea414140de5dae2223b00361a396177a9cb410ff61f20015ad" := by
  decide

/-! ## Basic facts about the movement call -/

theorem mcPostInit_G (s : FogState) : (mcPostInit s).G = s.G := by
  unfold mcPostInit
  split <;> rfl

theorem mcPostInit_log (s : FogState) : (mcPostInit s).log = s.log := by
  unfold mcPostInit
  split <;> rfl

theorem mcPostInit_ai (s : FogState) : (mcPostInit s).ai = s.ai := by
  unfold mcPostInit
  split <;> rfl

theorem edges_addNodeIfAbsent (g : Graph) (x : String) :
    (addNodeIfAbsent g x).edges = g.edges := by
  unfold addNodeIfAbsent
  split <;> rfl

theorem hasEdgeB_edges_only (g g' : Graph) (a b : String) (h : g.edges = g'.edges) :
    hasEdgeB g a b = hasEdgeB g' a b := by
  unfold hasEdgeB
  rw [h]

theorem pairEqB_replace (e : Edge) (x y a b : String) (attrs : EdgeAttrs) :
    pairEqB (if pairEqB e x y then (e.1, e.2.1, attrs) else e) a b = pairEqB e a b := by
  split <;> rfl

theorem addEdge_edges (g : Graph) (x y : String) (attrs : EdgeAttrs) :
    (addEdge g x y attrs).edges =
      if hasEdgeB g x y then
        g.edges.map (fun e => if pairEqB e x y then (e.1, e.2.1, attrs) else e)
      else g.edges ++ [(x, y, attrs)] := by
  simp only [addEdge]
  have he : (addNodeIfAbsent (addNodeIfAbsent g x) y).edges = g.edges := by
    rw [edges_addNodeIfAbsent, edges_addNodeIfAbsent]
  have hcond : hasEdgeB (addNodeIfAbsent (addNodeIfAbsent g x) y) x y = hasEdgeB g x y :=
    hasEdgeB_edges_only _ _ _ _ he
  rw [hcond]
  split <;> simp [he]

theorem addEdge_nodes_of_present (g : Graph) (x y : String) (attrs : EdgeAttrs)
    (hx : hasNodeB g x = true) (hy : hasNodeB g y = true) :
    (addEdge g x y attrs).nodes = g.nodes := by
  simp only [addEdge]
  have h1 : addNodeIfAbsent g x = g := by
    unfold addNodeIfAbsent
    rw [hx]
    rfl
  rw [h1]
  have h2 : addNodeIfAbsent g y = g := by
    unfold addNodeIfAbsent
    rw [hy]
    rfl
  rw [h2]
  split <;> rfl

theorem hasEdgeB_addEdge_mono {g : Graph} {a b : String} (x y : String) (attrs : EdgeAttrs)
    (h : hasEdgeB g a b = true) : hasEdgeB (addEdge g x y attrs) a b = true := by
  have he := addEdge_edges g x y attrs
  unfold hasEdgeB at h ⊢
  rw [he]
  split
  · rw [List.any_map]
    have : (fun e => pairEqB e a b) ∘ (fun e => if pairEqB e x y then (e.1, e.2.1, attrs) else e) =
        fun e => pairEqB e a b := by
      funext e
      exact pairEqB_replace e x y a b attrs
    rw [this]
    exact h
  · rw [List.any_append, h]
    rfl

theorem hasEdgeB_addEdge_self (g : Graph) (x y : String) (attrs : EdgeAttrs) :
    hasEdgeB (addEdge g x y attrs) x y = true := by
  have he := addEdge_edges g x y attrs
  unfold hasEdgeB
  rw [he]
  by_cases h : hasEdgeB g x y
  · rw [if_pos h]
    rw [List.any_map]
    have : (fun e => pairEqB e x y) ∘ (fun e => if pairEqB e x y then (e.1, e.2.1, attrs) else e) =
        fun e => pairEqB e x y := by
      funext e
      exact pairEqB_replace e x y x y attrs
    rw [this]
    exact h
  · rw [if_neg h, List.any_append]
    have : pairEqB (x, y, attrs) x y = true := by
      unfold pairEqB
      simp
    simp [this]

/-! ## Claim C10 -/

/-- C10: a `MovementManager` call whose chosen MOBILE node has no entry in
`node_locations` is total: it completes (the model is a total function, as the
Python code raises nothing on this path), removes no edge, logs the MOVE with
a `None` `from` field, chooses the target among *all* clusters (the `c !=
None` filter keeps every cluster), and still adds the new attachment edge,
updates the Location Map, and invalidates the routing cache. -/
theorem move_without_location_entry_total (s : FogState) (t : ℚ) (i j : Nat)
    (hmob : (mcPostInit s).mgr.mobile_nodes.isEmpty = false)
    (hloc : mcCur s i = none)
    (hcl : (mcPostInit s).mgr.cluster_nodes ≠ []) :
    mcPossible s i = (mcPostInit s).mgr.cluster_nodes ∧
    (movementCall s t i j).log = s.log ++
      [LogRecord.move t (mcNode s i) none (mcNew s i j)
        (check_node_movement (mcPostInit s).ai (mcNode s i) t).1] ∧
    (∀ a b : String, hasEdgeB s.G a b = true → hasEdgeB (movementCall s t i j).G a b = true) ∧
    hasEdgeB (movementCall s t i j).G (mcNode s i) (mcNew s i j) = true ∧
    (movementCall s t i j).mgr.node_locations (mcNode s i) = some (mcNew s i j) ∧
    (movementCall s t i j).invalid_cache_value = true := by
  have hposs : mcPossible s i = (mcPostInit s).mgr.cluster_nodes := by
    unfold mcPossible
    rw [hloc]
    refine List.filter_eq_self.mpr ?_
    intro c _
    rfl
  have hpne : (mcPossible s i).isEmpty = false := by
    rw [hposs]
    cases hcase : (mcPostInit s).mgr.cluster_nodes with
    | nil => exact absurd hcase hcl
    | cons c cs => rfl
  have hcall : movementCall s t i j =
      { G := addEdge (mcPostInit s).G (mcNode s i) (mcNew s i j) ⟨5, 2⟩,
        mgr := { (mcPostInit s).mgr with
          node_locations := updFn (mcPostInit s).mgr.node_locations (mcNode s i)
            (some (mcNew s i j)) },
        ai := (check_node_movement (mcPostInit s).ai (mcNode s i) t).2,
        log := (mcPostInit s).log ++
          [LogRecord.move t (mcNode s i) (mcCur s i) (mcNew s i j)
            (check_node_movement (mcPostInit s).ai (mcNode s i) t).1],
        invalid_cache_value := true } := by
    simp only [movementCall, hmob, hpne, hloc, Bool.false_eq_true, if_false]
  refine ⟨hposs, ?_, ?_, ?_, ?_, ?_⟩
  · rw [hcall]
    rw [mcPostInit_log, hloc]
  · intro a b hab
    rw [hcall]
    exact hasEdgeB_addEdge_mono _ _ _ (by rw [mcPostInit_G] at *; exact hab)
  · rw [hcall]
    exact hasEdgeB_addEdge_self _ _ _ _
  · rw [hcall]
    show updFn (mcPostInit s).mgr.node_locations (mcNode s i) (some (mcNew s i j)) (mcNode s i) =
      some (mcNew s i j)
    unfold updFn
    simp
  · rw [hcall]

/-- Witness for C10: an initialized manager knowing one mobile node `m1` with
no location entry and one cluster `c1`; the call logs a MOVE from `None`,
attaches `m1` to `c1`, and records the new location. -/
theorem move_without_location_entry_total_witness :
    (mcPostInit sW10).mgr.mobile_nodes.isEmpty = false ∧
    mcCur sW10 0 = none ∧
    (mcPostInit sW10).mgr.cluster_nodes ≠ [] ∧
    ((movementCall sW10 7 0 0).mgr.node_locations (mcNode sW10 0) = some (mcNew sW10 0 0) ∧
      hasEdgeB (movementCall sW10 7 0 0).G (mcNode sW10 0) (mcNew sW10 0 0) = true) := by
  refine ⟨by decide, by decide, by decide, ?_, ?_⟩
  · exact (move_without_location_entry_total sW10 7 0 0 (by decide) (by decide)
      (by decide)).2.2.2.2.1
  · exact (move_without_location_entry_total sW10 7 0 0 (by decide) (by decide)
      (by decide)).2.2.2.1

/-! ## Claim C8 -/

/-- Counterexample to C8 as stated: over a topology with one mobile node and
a single cluster (so no target cluster different from the current one
exists), a first — still uninitialized — `MovementManager` call appends no
record and mutates no edge, but it does *not* leave the Location Map
unchanged: the one-shot initialization seeds `node_locations["m1"] = "c1"`
where there was no entry before. -/
theorem noop_uninitialized_seeds_location_map :
    sC8.mgr.node_locations "m1" = none ∧
    (movementCall sC8 5 0 0).log = sC8.log ∧
    (movementCall sC8 5 0 0).G = sC8.G ∧
    (movementCall sC8 5 0 0).ai = sC8.ai ∧
    (movementCall sC8 5 0 0).mgr.node_locations "m1" = some "c1" ∧
    ¬ (movementCall sC8 5 0 0).mgr.node_locations = sC8.mgr.node_locations := by
  refine ⟨rfl, rfl, rfl, rfl, rfl, ?_⟩
  intro h
  have h1 := congrFun h "m1"
  rw [show (movementCall sC8 5 0 0).mgr.node_locations "m1" = some "c1" from rfl] at h1
  rw [show sC8.mgr.node_locations "m1" = (none : Option String) from rfl] at h1
  exact Option.noConfusion h1

/-- C8, amended by the counterexample: a `MovementManager` call that takes a
no-op branch (no mobile nodes, or no alternative target cluster) appends no
record and leaves the graph and classifier state unchanged; when the manager
is *already initialized* the whole state — including the Location Map — is
unchanged.  (An uninitialized call may additionally seed the Location Map
from the attachment edges, as the counterexample shows.) -/
theorem noop_paths_frame (s : FogState) (t : ℚ) (i j : Nat)
    (h : (mcPostInit s).mgr.mobile_nodes.isEmpty = true ∨ (mcPossible s i).isEmpty = true) :
    (movementCall s t i j).log = s.log ∧
    (movementCall s t i j).G = s.G ∧
    (movementCall s t i j).ai = s.ai ∧
    (s.mgr.initialized = true → movementCall s t i j = s) := by
  have hres : movementCall s t i j = mcPostInit s := by
    rcases h with h | h
    · simp only [movementCall, h, if_true]
    · by_cases h1 : (mcPostInit s).mgr.mobile_nodes.isEmpty = true
      · simp only [movementCall, h1, if_true]
      · rw [Bool.not_eq_true] at h1
        simp only [movementCall, h1, h, Bool.false_eq_true, if_false, if_true]
  have hid : s.mgr.initialized = true → mcPostInit s = s := by
    intro hinit
    unfold mcPostInit
    rw [hinit]
    rfl
  exact ⟨by rw [hres, mcPostInit_log], by rw [hres, mcPostInit_G], by rw [hres, mcPostInit_ai],
    fun hinit => by rw [hres, hid hinit]⟩

/-- Witness for the amended C8: an initialized manager with no mobile nodes;
the call is a complete no-op. -/
theorem noop_paths_frame_witness :
    ((mcPostInit sW8).mgr.mobile_nodes.isEmpty = true ∨ (mcPossible sW8 0).isEmpty = true) ∧
    sW8.mgr.initialized = true ∧
    movementCall sW8 3 0 0 = sW8 :=
  ⟨Or.inl (by decide), by decide,
   (noop_paths_frame sW8 3 0 0 (Or.inl (by decide))).2.2.2 (by decide)⟩

/-! ## Decidable facts about the setup names -/

theorem cluster_not_mobile : ∀ c ∈ clusterNames, ∀ m ∈ mobileNames, c ≠ m := by decide

theorem cluster_not_leader : ∀ c ∈ clusterNames, c ≠ "area_leader" ∧ c ≠ "" := by decide

theorem startCluster_mem (starts : Fin 5 → Fin 3) (k : Fin 5) :
    startCluster starts k ∈ clusterNames := by
  have h : ∀ v : Fin 3, clusterNames.getD v.val "" ∈ clusterNames := by decide
  exact h (starts k)

theorem iotName_mem : ∀ k : Fin 5, iotName k ∈ mobileNames := by decide

theorem iotName_inj : ∀ k j : Fin 5, iotName k = iotName j → k = j := by decide

theorem mobileNames_surj : ∀ n ∈ mobileNames, ∃ k : Fin 5, iotName k = n := by decide

theorem iot_beq_iot : ∀ j k : Fin 5, (iotName j == iotName k) = decide (j = k) := by decide

theorem getD_beq_iot : ∀ (c : Fin 3) (k : Fin 5),
    (clusterNames.getD c.val "" == iotName k) = false := by decide

theorem startCluster_ne_iot (starts : Fin 5 → Fin 3) (j k : Fin 5) :
    startCluster starts j ≠ iotName k :=
  cluster_not_mobile _ (startCluster_mem starts j) _ (iotName_mem k)

theorem startCluster_beq_iot (starts : Fin 5 → Fin 3) (j k : Fin 5) :
    (startCluster starts j == iotName k) = false :=
  getD_beq_iot (starts j) k

theorem typeOf_nodes_only (g g' : Graph) (x : String) (h : g.nodes = g'.nodes) :
    typeOf g x = typeOf g' x := by
  unfold typeOf
  rw [h]

theorem hasNodeB_nodes_only (g g' : Graph) (x : String) (h : g.nodes = g'.nodes) :
    hasNodeB g x = hasNodeB g' x := by
  unfold hasNodeB
  rw [h]

theorem setup_type_cluster : ∀ c ∈ clusterNames,
    typeOf (Graph.mk setupNodes []) c = some "CLUSTER" := by decide

theorem setup_type_mobile : ∀ m ∈ mobileNames,
    typeOf (Graph.mk setupNodes []) m = some "MOBILE" := by decide

theorem setup_hasNode_cluster : ∀ c ∈ clusterNames,
    hasNodeB (Graph.mk setupNodes []) c = true := by decide

theorem setup_hasNode_mobile : ∀ m ∈ mobileNames,
    hasNodeB (Graph.mk setupNodes []) m = true := by decide

/-! ## Unordered-pair lemmas -/

theorem pairEqB_trans {e : Edge} {a b x y : String} (h1 : pairEqB e a b = true)
    (h2 : pairEqB e x y = true) : pairSameB a b x y = true := by
  simp only [pairEqB, Bool.or_eq_true, Bool.and_eq_true] at h1 h2
  rcases h1 with ⟨h1a, h1b⟩ | ⟨h1a, h1b⟩ <;> rcases h2 with ⟨h2a, h2b⟩ | ⟨h2a, h2b⟩ <;>
    [skip; skip; skip; skip] <;>
    · have e1a := eq_of_beq h1a
      have e1b := eq_of_beq h1b
      have e2a := eq_of_beq h2a
      have e2b := eq_of_beq h2b
      subst e1a
      subst e1b
      subst e2a
      subst e2b
      simp [pairSameB]

theorem pairSameB_refl (a b : String) : pairSameB a b a b = true := by
  simp [pairSameB]

theorem pairEqB_congr {a b x y : String} (h : pairSameB a b x y = true) (e : Edge) :
    pairEqB e a b = pairEqB e x y := by
  simp only [pairSameB, Bool.or_eq_true, Bool.and_eq_true] at h
  rcases h with ⟨ha, hb⟩ | ⟨ha, hb⟩
  · rw [eq_of_beq ha, eq_of_beq hb]
  · rw [eq_of_beq ha, eq_of_beq hb]
    unfold pairEqB
    exact Bool.or_comm _ _

theorem pairSameB_of_pairEqB {e : Edge} {a b : String} (h : pairEqB e a b = true) :
    pairSameB e.1 e.2.1 a b = true := by
  simp only [pairEqB, Bool.or_eq_true, Bool.and_eq_true] at h
  simp only [pairSameB, Bool.or_eq_true, Bool.and_eq_true]
  exact h

theorem hasEdgeB_removeEdge (g : Graph) (x y a b : String) :
    hasEdgeB (removeEdge g x y) a b =
      if pairSameB a b x y = true then false else hasEdgeB g a b := by
  unfold hasEdgeB removeEdge
  by_cases hsame : pairSameB a b x y = true
  · rw [if_pos hsame]
    rw [List.any_eq_false]
    intro e he
    rw [List.mem_filter] at he
    intro habs
    rw [pairEqB_congr hsame] at habs
    rw [habs] at he
    exact Bool.noConfusion he.2
  · rw [if_neg hsame]
    show (g.edges.filter (fun e => !(pairEqB e x y))).any (fun e => pairEqB e a b) =
      g.edges.any (fun e => pairEqB e a b)
    by_cases hg : g.edges.any (fun e => pairEqB e a b) = true
    · rw [hg]
      rw [List.any_eq_true] at hg ⊢
      obtain ⟨e, he, hpe⟩ := hg
      refine ⟨e, ?_, hpe⟩
      rw [List.mem_filter]
      refine ⟨he, ?_⟩
      cases hxy : pairEqB e x y with
      | false => rfl
      | true => exact absurd (pairEqB_trans hpe hxy) hsame
    · rw [Bool.not_eq_true] at hg
      rw [hg]
      rw [List.any_eq_false] at hg ⊢
      intro e he
      exact hg e (List.mem_of_mem_filter he)

/-! ## Edge-count lemmas -/

theorem str_beq_comm (a b : String) : (a == b) = (b == a) := by
  by_cases h : a = b
  · subst h
    rfl
  · rw [beq_eq_false_iff_ne.mpr h, beq_eq_false_iff_ne.mpr (Ne.symm h)]

theorem pairEqB_new (x y a b : String) (attrs : EdgeAttrs) :
    pairEqB (x, y, attrs) a b = pairSameB a b x y := by
  unfold pairEqB pairSameB
  rw [str_beq_comm x a, str_beq_comm y b, str_beq_comm x b, str_beq_comm y a,
    Bool.and_comm (b == x) (a == y)]

theorem countPair_congr {a b x y : String} (es : List Edge) (h : pairSameB a b x y = true) :
    countPair es a b = countPair es x y := by
  unfold countPair
  refine List.countP_congr ?_
  intro e _
  rw [pairEqB_congr h e]

theorem countPair_removeEdge_le (g : Graph) (x y a b : String) :
    countPair (removeEdge g x y).edges a b ≤ countPair g.edges a b := by
  unfold countPair removeEdge
  exact (List.filter_sublist g.edges).countP_le _

theorem countPair_eq_zero_of_not_hasEdge {g : Graph} {a b : String}
    (h : hasEdgeB g a b = false) : countPair g.edges a b = 0 := by
  unfold countPair
  rw [List.countP_eq_zero]
  intro e he habs
  unfold hasEdgeB at h
  rw [List.any_eq_false] at h
  exact h e he habs

theorem countPair_pos_of_hasEdge {g : Graph} {a b : String}
    (h : hasEdgeB g a b = true) : 1 ≤ countPair g.edges a b := by
  unfold countPair
  unfold hasEdgeB at h
  rw [List.any_eq_true] at h
  obtain ⟨e, he, hpe⟩ := h
  exact List.countP_pos_iff.mpr ⟨e, he, hpe⟩

theorem countPair_map_replace (es : List Edge) (x y a b : String) (attrs : EdgeAttrs) :
    countPair (es.map (fun e => if pairEqB e x y then (e.1, e.2.1, attrs) else e)) a b =
      countPair es a b := by
  unfold countPair
  rw [List.countP_map]
  refine List.countP_congr ?_
  intro e _
  show (pairEqB (if pairEqB e x y then (e.1, e.2.1, attrs) else e) a b = true) ↔ _
  rw [pairEqB_replace]

theorem countPair_addEdge_le_one (g : Graph) (x y : String) (attrs : EdgeAttrs)
    (hle : ∀ a b, countPair g.edges a b ≤ 1) :
    ∀ a b, countPair (addEdge g x y attrs).edges a b ≤ 1 := by
  intro a b
  rw [addEdge_edges]
  split
  · rw [countPair_map_replace]
    exact hle a b
  · rename_i hno
    rw [Bool.not_eq_true] at hno
    unfold countPair
    rw [List.countP_append]
    by_cases hsame : pairSameB a b x y = true
    · have h0 : countPair g.edges a b = 0 := by
        rw [countPair_congr g.edges hsame]
        exact countPair_eq_zero_of_not_hasEdge hno
      unfold countPair at h0
      rw [h0]
      show 0 + List.countP _ [(x, y, attrs)] ≤ 1
      rw [Nat.zero_add]
      show List.countP _ ([(x, y, attrs)] : List Edge) ≤ 1
      rw [List.countP_cons]
      simp only [List.countP_nil, Nat.zero_add]
      split <;> simp
    · have h1 : List.countP (fun e => pairEqB e a b) [(x, y, attrs)] = 0 := by
        rw [List.countP_eq_zero]
        intro e he habs
        rw [List.mem_singleton] at he
        subst he
        rw [pairEqB_new] at habs
        exact hsame habs
      rw [h1]
      exact hle a b

/-- Exactly one stored edge joins `{a, b}` when an edge is present and no
pair is doubled. -/
theorem countPair_eq_one {g : Graph} {a b : String} (hle : ∀ x y, countPair g.edges x y ≤ 1)
    (h : hasEdgeB g a b = true) : countPair g.edges a b = 1 :=
  Nat.le_antisymm (hle a b) (countPair_pos_of_hasEdge h)

/-! ## Computing the one-shot initialization on the setup topology -/

theorem neighbors_initGraph_iot (starts : Fin 5 → Fin 3) (k : Fin 5) :
    neighbors (initGraph starts) (iotName k) = [startCluster starts k] := by
  have hlead : ∀ k' : Fin 5, leaderEdges.filterMap (fun e =>
      if e.1 == iotName k' then some e.2.1
      else if e.2.1 == iotName k' then some e.1
      else none) = [] := by decide
  show (leaderEdges ++ (List.finRange 5).map
      (fun j => (iotName j, startCluster starts j, (⟨5, 2⟩ : EdgeAttrs)))).filterMap
      (fun e => if e.1 == iotName k then some e.2.1
        else if e.2.1 == iotName k then some e.1 else none) = [startCluster starts k]
  rw [List.filterMap_append, hlead k, List.nil_append, List.filterMap_map]
  have hfun : ∀ j ∈ List.finRange 5,
      ((fun e : Edge => if e.1 == iotName k then some e.2.1
        else if e.2.1 == iotName k then some e.1 else none) ∘
       (fun j => (iotName j, startCluster starts j, (⟨5, 2⟩ : EdgeAttrs)))) j =
      (fun j => if decide (j = k) then some (startCluster starts j) else none) j := by
    intro j _
    show (if iotName j == iotName k then some (startCluster starts j)
      else if startCluster starts j == iotName k then some (iotName j) else none) = _
    rw [iot_beq_iot, startCluster_beq_iot]
    simp only [Bool.false_eq_true, if_false]
  rw [List.filterMap_congr hfun]
  have hrange : List.finRange 5 = [0, 1, 2, 3, 4] := by decide
  rw [hrange]
  fin_cases k <;> simp

theorem typeOf_getD_cluster : ∀ c : Fin 3,
    (typeOf (Graph.mk setupNodes []) (clusterNames.getD c.val "") == some "CLUSTER") = true := by
  decide

theorem seedManager_initGraph (starts : Fin 5 → Fin 3) :
    seedManager (initGraph starts) mgr0 =
      ⟨mobileNames, clusterNames, true, seededLoc starts⟩ := by
  have h0 : neighbors (initGraph starts) "iot_0" = [startCluster starts 0] :=
    neighbors_initGraph_iot starts 0
  have h1 : neighbors (initGraph starts) "iot_1" = [startCluster starts 1] :=
    neighbors_initGraph_iot starts 1
  have h2 : neighbors (initGraph starts) "iot_2" = [startCluster starts 2] :=
    neighbors_initGraph_iot starts 2
  have h3 : neighbors (initGraph starts) "iot_3" = [startCluster starts 3] :=
    neighbors_initGraph_iot starts 3
  have h4 : neighbors (initGraph starts) "iot_4" = [startCluster starts 4] :=
    neighbors_initGraph_iot starts 4
  have hf : ∀ k : Fin 5, List.find?
      (fun nb => typeOf (initGraph starts) nb == some "CLUSTER") [startCluster starts k] =
      some (startCluster starts k) := by
    intro k
    exact List.find?_cons_of_pos _ (typeOf_getD_cluster (starts k))
  unfold seedManager
  show { List.foldl (seedStep (initGraph starts)) mgr0 setupNodes with initialized := true } = _
  simp only [setupNodes, List.foldl_cons, List.foldl_nil, seedStep, leaderAttrs, clusterAttrs,
    mobileAttrs, h0, h1, h2, h3, h4, hf, Option.some.injEq, String.reduceEq, if_false, if_true,
    reduceIte]
  rfl

/-! ## The initial state satisfies the invariant -/

theorem lead_beq_iot : ∀ k : Fin 5, ("area_leader" == iotName k) = false := by decide

theorem cl1_beq_iot : ∀ k : Fin 5, ("cluster_1" == iotName k) = false := by decide

theorem cl2_beq_iot : ∀ k : Fin 5, ("cluster_2" == iotName k) = false := by decide

theorem cl3_beq_iot : ∀ k : Fin 5, ("cluster_3" == iotName k) = false := by decide

theorem getD_beq_leader : ∀ c : Fin 3,
    (clusterNames.getD c.val "" == "area_leader") = false := by decide

theorem iot_beq_start (starts : Fin 5 → Fin 3) (k j : Fin 5) :
    (iotName k == startCluster starts j) = false := by
  rw [str_beq_comm]
  exact startCluster_beq_iot starts j k

theorem init_attach (starts : Fin 5 → Fin 3) (k : Fin 5) (d : String) :
    attachB (initGraph starts) (iotName k) d = true ↔ d = startCluster starts k := by
  have hty : (typeOf (initGraph starts) (startCluster starts k) == some "CLUSTER") = true :=
    typeOf_getD_cluster (starts k)
  constructor
  · intro h
    unfold attachB at h
    rw [Bool.and_eq_true] at h
    obtain ⟨hedge, _⟩ := h
    unfold hasEdgeB at hedge
    rw [List.any_eq_true] at hedge
    obtain ⟨e, he, hpe⟩ := hedge
    have he' : e ∈ leaderEdges ++ (List.finRange 5).map
        (fun j => (iotName j, startCluster starts j, (⟨5, 2⟩ : EdgeAttrs))) := he
    rw [List.mem_append] at he'
    rcases he' with hl | hm
    · exfalso
      have hfalse : pairEqB e (iotName k) d = false := by
        fin_cases hl <;>
          simp only [pairEqB, lead_beq_iot, cl1_beq_iot, cl2_beq_iot, cl3_beq_iot,
            Bool.false_and, Bool.and_false, Bool.or_false, Bool.false_or]
      rw [hfalse] at hpe
      exact Bool.noConfusion hpe
    · rw [List.mem_map] at hm
      obtain ⟨j, _, rfl⟩ := hm
      unfold pairEqB at hpe
      simp only [startCluster_beq_iot, Bool.and_false, Bool.or_false, Bool.and_eq_true] at hpe
      obtain ⟨hjk, hd⟩ := hpe
      rw [iot_beq_iot] at hjk
      have : j = k := of_decide_eq_true hjk
      subst this
      exact (eq_of_beq hd).symm
  · intro h
    subst h
    unfold attachB
    rw [Bool.and_eq_true]
    refine ⟨?_, hty⟩
    unfold hasEdgeB
    rw [List.any_eq_true]
    refine ⟨(iotName k, startCluster starts k, (⟨5, 2⟩ : EdgeAttrs)), ?_, ?_⟩
    · show _ ∈ leaderEdges ++ (List.finRange 5).map
        (fun j => (iotName j, startCluster starts j, (⟨5, 2⟩ : EdgeAttrs)))
      rw [List.mem_append, List.mem_map]
      exact Or.inr ⟨k, List.mem_finRange k, rfl⟩
    · unfold pairEqB
      simp

theorem pairSameB_symm (p q a b : String) : pairSameB p q a b = pairSameB a b p q := by
  unfold pairSameB
  rw [str_beq_comm p a, str_beq_comm q b, str_beq_comm p b, str_beq_comm q a,
    Bool.and_comm (b == p) (a == q)]

theorem pairSameB_trans {p q r s a b : String} (h1 : pairSameB p q a b = true)
    (h2 : pairSameB r s a b = true) : pairSameB p q r s = true := by
  have h1' : pairEqB (a, b, (⟨0, 0⟩ : EdgeAttrs)) p q = true := by
    show pairSameB a b p q = true
    rw [← pairSameB_symm]
    exact h1
  have h2' : pairEqB (a, b, (⟨0, 0⟩ : EdgeAttrs)) r s = true := by
    show pairSameB a b r s = true
    rw [← pairSameB_symm]
    exact h2
  exact pairEqB_trans h1' h2'

theorem countP_le_one_of_pairwise {α : Type} (p : α → Bool) :
    ∀ l : List α, List.Pairwise (fun x y => ¬(p x = true ∧ p y = true)) l → l.countP p ≤ 1 := by
  intro l
  induction l with
  | nil => intro _; simp
  | cons a rest ih =>
    intro hp
    rw [List.pairwise_cons] at hp
    rw [List.countP_cons]
    by_cases ha : p a = true
    · have h0 : rest.countP p = 0 := by
        rw [List.countP_eq_zero]
        intro x hx hpx
        exact hp.1 x hx ⟨ha, hpx⟩
      rw [h0, ha]
      simp
    · rw [Bool.not_eq_true] at ha
      rw [ha]
      simp only [Bool.false_eq_true, if_false, Nat.add_zero]
      exact ih hp.2

theorem leader_pairs_distinct :
    List.Pairwise (fun e e' : Edge => pairSameB e.1 e.2.1 e'.1 e'.2.1 = false) leaderEdges := by
  decide

theorem initEdges_pairwise (starts : Fin 5 → Fin 3) :
    List.Pairwise (fun e e' : Edge => pairSameB e.1 e.2.1 e'.1 e'.2.1 = false)
      (initEdges starts) := by
  unfold initEdges
  rw [List.pairwise_append]
  refine ⟨leader_pairs_distinct, ?_, ?_⟩
  · rw [List.pairwise_map]
    have hnd : List.Pairwise (fun a b : Fin 5 => a ≠ b) (List.finRange 5) :=
      List.nodup_finRange 5
    refine hnd.imp ?_
    intro j j' hne
    show pairSameB (iotName j) (startCluster starts j) (iotName j') (startCluster starts j') =
      false
    unfold pairSameB
    rw [iot_beq_iot, iot_beq_start]
    have hd : decide (j = j') = false := decide_eq_false hne
    rw [hd]
    rfl
  · intro e he e' he'
    rw [List.mem_map] at he'
    obtain ⟨j, _, rfl⟩ := he'
    show pairSameB e.1 e.2.1 (iotName j) (startCluster starts j) = false
    fin_cases he <;>
      · unfold pairSameB
        simp only [lead_beq_iot, cl1_beq_iot, cl2_beq_iot, cl3_beq_iot, getD_beq_leader,
          startCluster, Bool.false_and, Bool.and_false, Bool.or_false, Bool.false_or]

theorem initEdges_at_most_one (starts : Fin 5 → Fin 3) :
    ∀ a b : String, countPair (initEdges starts) a b ≤ 1 := by
  intro a b
  unfold countPair
  refine countP_le_one_of_pairwise _ _ ?_
  refine (initEdges_pairwise starts).imp ?_
  intro e e' hfalse ⟨hp1, hp2⟩
  have hs1 := pairSameB_of_pairEqB hp1
  have hs2 := pairSameB_of_pairEqB hp2
  have := pairSameB_trans hs1 hs2
  rw [hfalse] at this
  exact Bool.noConfusion this

/-! ## Log replay lemmas -/

theorem chainOKAux_append (xs ys : List LogRecord) :
    ∀ seen, chainOKAux seen (xs ++ ys) =
      (chainOKAux seen xs && chainOKAux (xs.foldl seenUpd seen) ys) := by
  induction xs with
  | nil => intro seen; simp [chainOKAux]
  | cons r rest ih =>
    intro seen
    show (recOK seen r && chainOKAux (seenUpd seen r) (rest ++ ys)) = _
    rw [ih (seenUpd seen r), ← Bool.and_assoc]
    rfl

theorem seenFold_append_single (xs : List LogRecord) (r : LogRecord) :
    seenFold (xs ++ [r]) = seenUpd (seenFold xs) r := by
  unfold seenFold
  rw [List.foldl_append]
  rfl

theorem chainOK_snoc (xs : List LogRecord) (r : LogRecord) :
    chainOK (xs ++ [r]) = (chainOK xs && recOK (seenFold xs) r) := by
  unfold chainOK
  rw [chainOKAux_append]
  show _ = (chainOKAux [] xs && recOK (seenFold xs) r)
  have : chainOKAux (List.foldl seenUpd [] xs) [r] = recOK (seenFold xs) r := by
    show (recOK (seenFold xs) r && true) = recOK (seenFold xs) r
    exact Bool.and_true _
  rw [this]

theorem chainOK_initials (starts : Fin 5 → Fin 3) : chainOK (initLog starts) = true := by
  have h : ∀ (l : List (Fin 5)) (seen : List (String × String)),
      chainOKAux seen (l.map (fun k => LogRecord.initial 0 (iotName k) (startCluster starts k)))
        = true := by
    intro l
    induction l with
    | nil => intro seen; rfl
    | cons k rest ih =>
      intro seen
      show (recOK seen (LogRecord.initial 0 (iotName k) (startCluster starts k)) &&
        chainOKAux _ _) = true
      rw [ih]
      show (((0 : ℚ) == 0) && true) = true
      rw [beq_self_eq_true]
      rfl
  exact h (List.finRange 5) []

theorem seenFold_init (starts : Fin 5 → Fin 3) (k : Fin 5) :
    (seenFold (initLog starts)).lookup (iotName k) = some (startCluster starts k) := by
  fin_cases k <;> rfl

/-! ## The initial state and step preservation -/

theorem initState_inv (starts : Fin 5 → Fin 3) : FogInv starts (initState starts) := by
  refine ⟨rfl, fun _ => ⟨rfl, rfl⟩, ?_, ?_, ?_, initEdges_at_most_one starts,
    ⟨[], (List.append_nil _).symm⟩, ?_, chainOK_initials starts⟩
  · intro h
    exact Bool.noConfusion h
  · intro h
    exact Bool.noConfusion h
  · intro k
    exact ⟨startCluster starts k, startCluster_mem starts k, rfl,
      fun d => init_attach starts k d⟩
  · intro k
    show List.lookup (iotName k) (seenFold (initLog starts)) = some (startCluster starts k)
    exact seenFold_init starts k

/-! ## Step preservation of the invariant -/

theorem ne_nil_of_isEmpty_false {α : Type} {l : List α} (h : l.isEmpty = false) : l ≠ [] := by
  cases l with
  | nil => exact Bool.noConfusion h
  | cons a t => exact List.cons_ne_nil a t

theorem getD_mem_of_ne_nil {l : List String} (h : l ≠ []) (n : Nat) :
    l.getD (n % l.length) "" ∈ l := by
  have hlen : 0 < l.length := List.length_pos.mpr h
  have hlt : n % l.length < l.length := Nat.mod_lt _ hlen
  rw [List.getD_eq_getElem _ _ hlt]
  exact List.getElem_mem hlt

theorem removeEdge_nodes (g : Graph) (a b : String) : (removeEdge g a b).nodes = g.nodes := rfl

theorem seededLoc_iot (starts : Fin 5 → Fin 3) :
    ∀ k : Fin 5, seededLoc starts (iotName k) = some (startCluster starts k) := by
  intro k
  fin_cases k <;> rfl

theorem inv_mcPostInit {starts : Fin 5 → Fin 3} {s : FogState} (h : FogInv starts s) :
    FogInv starts (mcPostInit s) ∧ (mcPostInit s).mgr.initialized = true := by
  by_cases hinit : s.mgr.initialized = true
  · have hid : mcPostInit s = s := by
      unfold mcPostInit
      rw [hinit]
      rfl
    rw [hid]
    exact ⟨h, hinit⟩
  · rw [Bool.not_eq_true] at hinit
    obtain ⟨hm, hG⟩ := h.uninit_mgr hinit
    have hstep : mcPostInit s =
        { s with mgr := Manager.mk mobileNames clusterNames true (seededLoc starts) } := by
      unfold mcPostInit
      rw [hinit]
      show { s with mgr := seedManager s.G s.mgr } = _
      rw [hm, hG, seedManager_initGraph]
    rw [hstep]
    have hattach := h.attach_one
    refine ⟨⟨h.nodes_eq, ?_, fun _ => rfl, fun _ => rfl, ?_, h.at_most_one, h.log_shape, ?_,
      h.chain_ok⟩, rfl⟩
    · intro habs
      exact Bool.noConfusion habs
    · intro k
      obtain ⟨c, hcmem, hloc, hiff⟩ := hattach k
      refine ⟨c, hcmem, ?_, hiff⟩
      unfold locOf at hloc ⊢
      rw [hinit] at hloc
      show (if true = true then seededLoc starts (iotName k) else _) = some c
      rw [if_pos rfl, seededLoc_iot]
      simpa using hloc
    · intro k
      have := h.seen_sync k
      rw [this]
      obtain ⟨c, hcmem, hloc, hiff⟩ := hattach k
      unfold locOf at hloc ⊢
      rw [hinit] at hloc
      show _ = (if true = true then seededLoc starts (iotName k) else _)
      rw [if_pos rfl, seededLoc_iot]
      rw [hinit]
      simp

theorem inv_rekey {starts : Fin 5 → Fin 3} {s : FogState} (h : FogInv starts s)
    (t : ℚ) (picks : Fin 8 → Fin 62) : FogInv starts (rekeyCall s t picks) := by
  obtain ⟨rest, hrest⟩ := h.log_shape
  refine ⟨h.nodes_eq, h.uninit_mgr, h.init_mobile, h.init_cluster, h.attach_one, h.at_most_one,
    ⟨rest ++ [LogRecord.rekey t (generate_seed picks) (derive_key (generate_seed picks))], ?_⟩,
    ?_, ?_⟩
  · show s.log ++ [LogRecord.rekey t _ _] = _
    rw [hrest, List.append_assoc]
  · intro k
    show List.lookup (iotName k) (seenFold (s.log ++ [LogRecord.rekey t _ _])) = _
    rw [seenFold_append_single]
    exact h.seen_sync k
  · show chainOK (s.log ++ [LogRecord.rekey t _ _]) = true
    rw [chainOK_snoc, h.chain_ok]
    rfl

set_option maxHeartbeats 1000000 in
theorem move_core {starts : Fin 5 → Fin 3} {s : FogState} (hInv : FogInv starts s)
    (t : ℚ) (i j : Nat) (hposs : (mcPossible s i).isEmpty = false) :
    FogInv starts (movementCall s t i j) ∧
    (∀ d : String, attachB (movementCall s t i j).G (mcNode s i) d = true ↔ d = mcNew s i j) ∧
    typeOf (movementCall s t i j).G (mcNew s i j) = some "CLUSTER" ∧
    hasEdgeB (movementCall s t i j).G (mcNode s i) (mcNew s i j) = true := by
  obtain ⟨hInv1, hinit⟩ := inv_mcPostInit hInv
  have hmobeq : (mcPostInit s).mgr.mobile_nodes = mobileNames := hInv1.init_mobile hinit
  have hclueq : (mcPostInit s).mgr.cluster_nodes = clusterNames := hInv1.init_cluster hinit
  have hmob : (mcPostInit s).mgr.mobile_nodes.isEmpty = false := by rw [hmobeq]; rfl
  -- the chosen node is a mobile node
  have hnodemem : mcNode s i ∈ mobileNames := by
    show (mcPostInit s).mgr.mobile_nodes.getD (i % (mcPostInit s).mgr.mobile_nodes.length) "" ∈
      mobileNames
    rw [hmobeq]
    exact getD_mem_of_ne_nil (by decide) i
  obtain ⟨k, hk⟩ := mobileNames_surj _ hnodemem
  -- its current location from the invariant
  obtain ⟨c₀, hc₀mem, hloc, hiff⟩ := hInv1.attach_one k
  have hloceq : (mcPostInit s).mgr.node_locations (iotName k) = some c₀ := by
    unfold locOf at hloc
    rw [hinit] at hloc
    simpa using hloc
  have hcur : mcCur s i = some c₀ := by
    unfold mcCur
    rw [hk] at hloceq
    exact hloceq
  -- the new location is a cluster different from the current one
  have hpossfilter : mcPossible s i =
      clusterNames.filter (fun c => !(some c == mcCur s i)) := by
    unfold mcPossible
    rw [hclueq]
  have hnewmem : mcNew s i j ∈ mcPossible s i := by
    unfold mcNew
    exact getD_mem_of_ne_nil (ne_nil_of_isEmpty_false hposs) j
  have hnewcl : mcNew s i j ∈ clusterNames ∧ mcNew s i j ≠ c₀ := by
    rw [hpossfilter] at hnewmem
    rw [List.mem_filter] at hnewmem
    obtain ⟨hmem, hne⟩ := hnewmem
    refine ⟨hmem, ?_⟩
    rw [hcur] at hne
    intro habs
    rw [habs] at hne
    simp at hne
  -- the guard of the removal branch holds
  have hc₀ne : (c₀ != "") = true := bne_iff_ne.mpr (cluster_not_leader c₀ hc₀mem).2
  have hattc₀ : attachB (mcPostInit s).G (iotName k) c₀ = true := (hiff c₀).mpr rfl
  have hedgec₀ : hasEdgeB (mcPostInit s).G (iotName k) c₀ = true := by
    unfold attachB at hattc₀
    rw [Bool.and_eq_true] at hattc₀
    exact hattc₀.1
  have hcond : ((c₀ != "") && hasEdgeB (mcPostInit s).G (mcNode s i) c₀) = true := by
    rw [← hk, hc₀ne, hedgec₀]
    rfl
  -- the call reduces to its mutation branch
  have hcall : movementCall s t i j =
      { G := (addEdge (removeEdge (mcPostInit s).G (mcNode s i) c₀) (mcNode s i) (mcNew s i j) ⟨5, 2⟩),
        mgr := ({ (mcPostInit s).mgr with node_locations := (updFn (mcPostInit s).mgr.node_locations (mcNode s i) (some (mcNew s i j))) }),
        ai := ((check_node_movement (mcPostInit s).ai (mcNode s i) t).2),
        log := ((mcPostInit s).log ++ [LogRecord.move t (mcNode s i) (some c₀) (mcNew s i j) (check_node_movement (mcPostInit s).ai (mcNode s i) t).1]),
        invalid_cache_value := true } := by
    simp only [movementCall, hmob, hposs, Bool.false_eq_true, if_false, hcur, hcond, if_true]
  -- nodes are unchanged
  have hremnodes : (removeEdge (mcPostInit s).G (mcNode s i) c₀).nodes = setupNodes := by
    rw [removeEdge_nodes]
    exact hInv1.nodes_eq
  have hnoden : hasNodeB (removeEdge (mcPostInit s).G (mcNode s i) c₀) (mcNode s i) = true := by
    rw [hasNodeB_nodes_only _ (Graph.mk setupNodes []) _ hremnodes]
    exact setup_hasNode_mobile _ hnodemem
  have hnodec : hasNodeB (removeEdge (mcPostInit s).G (mcNode s i) c₀) (mcNew s i j) = true := by
    rw [hasNodeB_nodes_only _ (Graph.mk setupNodes []) _ hremnodes]
    exact setup_hasNode_cluster _ hnewcl.1
  have hGnodes : (movementCall s t i j).G.nodes = setupNodes := by
    rw [hcall]
    show (addEdge _ _ _ _).nodes = setupNodes
    rw [addEdge_nodes_of_present _ _ _ _ hnoden hnodec, hremnodes]
  have htystable : ∀ x, typeOf (movementCall s t i j).G x = typeOf (Graph.mk setupNodes []) x :=
    fun x => typeOf_nodes_only _ _ _ hGnodes
  have htystable1 : ∀ x, typeOf (mcPostInit s).G x = typeOf (Graph.mk setupNodes []) x :=
    fun x => typeOf_nodes_only _ _ _ hInv1.nodes_eq
  -- after the removal there is no {node, new} edge
  have hnonew : hasEdgeB (removeEdge (mcPostInit s).G (mcNode s i) c₀) (mcNode s i)
      (mcNew s i j) = false := by
    rw [hasEdgeB_removeEdge]
    split
    · rfl
    · cases hedge : hasEdgeB (mcPostInit s).G (mcNode s i) (mcNew s i j) with
      | false => rfl
      | true =>
        exfalso
        have hatt : attachB (mcPostInit s).G (iotName k) (mcNew s i j) = true := by
          unfold attachB
          rw [hk, hedge, htystable1, setup_type_cluster _ hnewcl.1]
          rfl
        exact hnewcl.2 ((hiff _).mp hatt)
  have hedges : (movementCall s t i j).G.edges =
      (removeEdge (mcPostInit s).G (mcNode s i) c₀).edges ++
        [(mcNode s i, mcNew s i j, ⟨5, 2⟩)] := by
    rw [hcall]
    show (addEdge _ _ _ _).edges = _
    rw [addEdge_edges, hnonew]
    simp
  have hHE : ∀ a b : String, hasEdgeB (movementCall s t i j).G a b =
      (hasEdgeB (removeEdge (mcPostInit s).G (mcNode s i) c₀) a b ||
       pairEqB (mcNode s i, mcNew s i j, ⟨5, 2⟩) a b) := by
    intro a b
    show (movementCall s t i j).G.edges.any (fun e => pairEqB e a b) = _
    rw [hedges, List.any_append]
    congr 1
    show List.any [(mcNode s i, mcNew s i j, ⟨5, 2⟩)] (fun e => pairEqB e a b) = _
    rw [List.any_cons, List.any_nil, Bool.or_false]
  have hneq_nc : mcNode s i ≠ mcNew s i j := fun habs =>
    (cluster_not_mobile _ hnewcl.1 _ hnodemem) habs.symm
  -- the moved node's attachment edges are exactly the new one
  have hattach_new : ∀ d : String, attachB (movementCall s t i j).G (mcNode s i) d = true ↔
      d = mcNew s i j := by
    intro d
    constructor
    · intro h
      unfold attachB at h
      rw [Bool.and_eq_true] at h
      obtain ⟨hedge, htyd⟩ := h
      rw [htystable] at htyd
      rw [hHE, Bool.or_eq_true] at hedge
      rcases hedge with hedge | hedge
      · exfalso
        rw [hasEdgeB_removeEdge] at hedge
        by_cases hps : pairSameB (mcNode s i) d (mcNode s i) c₀ = true
        · rw [if_pos hps] at hedge
          exact Bool.noConfusion hedge
        · rw [if_neg hps] at hedge
          have hatt : attachB (mcPostInit s).G (iotName k) d = true := by
            unfold attachB
            rw [hk, hedge, htystable1, htyd]
            rfl
          have hd : d = c₀ := (hiff d).mp hatt
          subst hd
          exact hps (pairSameB_refl _ _)
      · unfold pairEqB at hedge
        simp only [Bool.or_eq_true, Bool.and_eq_true] at hedge
        rcases hedge with ⟨h1, h2⟩ | ⟨h1, h2⟩
        · exact (eq_of_beq h2).symm
        · exact absurd (eq_of_beq h2).symm hneq_nc
    · intro h
      subst h
      unfold attachB
      rw [hHE]
      have hpe : pairEqB (mcNode s i, mcNew s i j, ⟨5, 2⟩) (mcNode s i) (mcNew s i j) = true := by
        unfold pairEqB
        simp
      rw [hpe, Bool.or_true]
      rw [htystable, setup_type_cluster _ hnewcl.1]
      rfl
  -- other mobile nodes keep their attachment edges
  have hattach_old : ∀ k' : Fin 5, k' ≠ k → ∀ d : String,
      attachB (movementCall s t i j).G (iotName k') d =
        attachB (mcPostInit s).G (iotName k') d := by
    intro k' hk' d
    have hm_ne_n : iotName k' ≠ mcNode s i := by
      rw [← hk]
      intro habs
      exact hk' (iotName_inj _ _ habs)
    have hm_mobile : iotName k' ∈ mobileNames := iotName_mem k'
    have hm_ne_c₀ : iotName k' ≠ c₀ := fun habs =>
      (cluster_not_mobile _ hc₀mem _ hm_mobile) habs.symm
    have hm_ne_new : iotName k' ≠ mcNew s i j := fun habs =>
      (cluster_not_mobile _ hnewcl.1 _ hm_mobile) habs.symm
    unfold attachB
    rw [hHE]
    have hpe : pairEqB (mcNode s i, mcNew s i j, ⟨5, 2⟩) (iotName k') d = false := by
      unfold pairEqB
      rw [beq_eq_false_iff_ne.mpr (Ne.symm hm_ne_n), beq_eq_false_iff_ne.mpr (Ne.symm hm_ne_new)]
      simp
    rw [hpe, Bool.or_false]
    rw [hasEdgeB_removeEdge]
    have hps : pairSameB (iotName k') d (mcNode s i) c₀ = false := by
      unfold pairSameB
      rw [beq_eq_false_iff_ne.mpr hm_ne_n, beq_eq_false_iff_ne.mpr hm_ne_c₀]
      simp
    rw [hps]
    simp only [Bool.false_eq_true, if_false]
    rw [htystable, htystable1]
  -- projections of the new state
  have hinits' : (movementCall s t i j).mgr.initialized = true := by
    rw [hcall]
    exact hinit
  have hmobeq' : (movementCall s t i j).mgr.mobile_nodes = mobileNames := by
    rw [hcall]
    exact hmobeq
  have hclueq' : (movementCall s t i j).mgr.cluster_nodes = clusterNames := by
    rw [hcall]
    exact hclueq
  have hlocs' : ∀ x : String, (movementCall s t i j).mgr.node_locations x =
      (if x = mcNode s i then some (mcNew s i j)
       else (mcPostInit s).mgr.node_locations x) := by
    intro x
    rw [hcall]
    rfl
  have hlocOf1 : ∀ k' : Fin 5, locOf starts (mcPostInit s) k' =
      (mcPostInit s).mgr.node_locations (iotName k') := by
    intro k'
    unfold locOf
    rw [hinit]
    rfl
  have hlocOf' : ∀ k' : Fin 5, locOf starts (movementCall s t i j) k' =
      (if iotName k' = mcNode s i then some (mcNew s i j)
       else (mcPostInit s).mgr.node_locations (iotName k')) := by
    intro k'
    unfold locOf
    rw [hinits']
    show (movementCall s t i j).mgr.node_locations (iotName k') = _
    rw [hlocs']
  have hlog : (movementCall s t i j).log = (mcPostInit s).log ++
      [LogRecord.move t (mcNode s i) (some c₀) (mcNew s i j)
        (check_node_movement (mcPostInit s).ai (mcNode s i) t).1] := by
    rw [hcall]
  -- the remaining conclusions of the theorem
  have htynew : typeOf (movementCall s t i j).G (mcNew s i j) = some "CLUSTER" := by
    rw [htystable]
    exact setup_type_cluster _ hnewcl.1
  have hedgenew : hasEdgeB (movementCall s t i j).G (mcNode s i) (mcNew s i j) = true := by
    rw [hHE]
    have hpe : pairEqB (mcNode s i, mcNew s i j, ⟨5, 2⟩) (mcNode s i) (mcNew s i j) = true := by
      unfold pairEqB
      simp
    rw [hpe, Bool.or_true]
  refine ⟨⟨hGnodes, ?_, fun _ => hmobeq', fun _ => hclueq', ?_, ?_, ?_, ?_, ?_⟩,
    hattach_new, htynew, hedgenew⟩
  · intro habs
    rw [hinits'] at habs
    exact Bool.noConfusion habs
  · -- attach_one
    intro k'
    by_cases hkk : k' = k
    · subst hkk
      refine ⟨mcNew s i j, hnewcl.1, ?_, ?_⟩
      · rw [hlocOf' k', if_pos hk]
      · intro d
        rw [hk]
        exact hattach_new d
    · obtain ⟨c', hc'mem, hloc', hiff'⟩ := hInv1.attach_one k'
      have hm_ne_n : iotName k' ≠ mcNode s i := by
        rw [← hk]
        intro habs
        exact hkk (iotName_inj _ _ habs)
      refine ⟨c', hc'mem, ?_, ?_⟩
      · rw [hlocOf' k', if_neg hm_ne_n, ← hlocOf1 k']
        exact hloc'
      · intro d
        rw [hattach_old k' hkk d]
        exact hiff' d
  · -- at_most_one
    intro a b
    have hle1 : ∀ x y, countPair (removeEdge (mcPostInit s).G (mcNode s i) c₀).edges x y ≤ 1 :=
      fun x y => le_trans (countPair_removeEdge_le _ _ _ _ _) (hInv1.at_most_one x y)
    have hres := countPair_addEdge_le_one (removeEdge (mcPostInit s).G (mcNode s i) c₀)
      (mcNode s i) (mcNew s i j) ⟨5, 2⟩ hle1 a b
    rw [hcall]
    exact hres
  · -- log_shape
    obtain ⟨rest, hrest⟩ := hInv1.log_shape
    refine ⟨rest ++ [LogRecord.move t (mcNode s i) (some c₀) (mcNew s i j)
      (check_node_movement (mcPostInit s).ai (mcNode s i) t).1], ?_⟩
    rw [hlog, hrest, List.append_assoc]
  · -- seen_sync
    intro k'
    rw [hlog]
    show List.lookup (iotName k') (seenFold (_ ++ [_])) = _
    rw [seenFold_append_single]
    show List.lookup (iotName k') ((mcNode s i, mcNew s i j) :: seenFold (mcPostInit s).log) = _
    by_cases hkk : k' = k
    · subst hkk
      rw [hlocOf' k', if_pos hk]
      simp only [List.lookup]
      rw [show (iotName k' == mcNode s i) = true from (by rw [hk]; exact beq_self_eq_true _)]
    · have hm_ne_n : iotName k' ≠ mcNode s i := by
        rw [← hk]
        intro habs
        exact hkk (iotName_inj _ _ habs)
      rw [hlocOf' k', if_neg hm_ne_n]
      simp only [List.lookup]
      rw [show (iotName k' == mcNode s i) = false from beq_eq_false_iff_ne.mpr hm_ne_n]
      show List.lookup (iotName k') (seenFold (mcPostInit s).log) = _
      rw [hInv1.seen_sync k', hlocOf1 k']
  · -- chain_ok
    rw [hlog, chainOK_snoc, hInv1.chain_ok]
    show (true && recOK (seenFold (mcPostInit s).log)
      (LogRecord.move t (mcNode s i) (some c₀) (mcNew s i j) _)) = true
    rw [Bool.true_and]
    show (match List.lookup (mcNode s i) (seenFold (mcPostInit s).log) with
      | some c => some c₀ == some c
      | none => false) = true
    have hlk : List.lookup (mcNode s i) (seenFold (mcPostInit s).log) = some c₀ := by
      rw [← hk]
      rw [hInv1.seen_sync k, hlocOf1 k]
      exact hloceq
    rw [hlk]
    exact beq_self_eq_true _

theorem inv_step {starts : Fin 5 → Fin 3} {s s' : FogState} (h : FogInv starts s)
    (hstep : Step s s') : FogInv starts s' := by
  cases hstep with
  | move t i j =>
    by_cases h1 : (mcPostInit s).mgr.mobile_nodes.isEmpty = true
    · have hid : movementCall s t i j = mcPostInit s := by
        simp only [movementCall, h1, if_true]
      rw [hid]
      exact (inv_mcPostInit h).1
    · rw [Bool.not_eq_true] at h1
      by_cases h2 : (mcPossible s i).isEmpty = true
      · have hid : movementCall s t i j = mcPostInit s := by
          simp only [movementCall, h1, h2, Bool.false_eq_true, if_false, if_true]
        rw [hid]
        exact (inv_mcPostInit h).1
      · rw [Bool.not_eq_true] at h2
        exact (move_core h t i j h2).1
  | rekey t picks => exact inv_rekey h t picks

theorem inv_reachable {starts : Fin 5 → Fin 3} {s : FogState} (h : Reachable starts s) :
    FogInv starts s := by
  unfold Reachable at h
  induction h with
  | refl => exact initState_inv starts
  | tail _ hstep ih => exact inv_step ih hstep

theorem reachable_refl (starts : Fin 5 → Fin 3) : Reachable starts (initState starts) :=
  Relation.ReflTransGen.refl

/-! ## Claim C3 -/

/-- C3: in every reachable state (in all of which each MOBILE node has
exactly one CLUSTER-attachment edge — see `FogInv.attach_one`), a Mobility
Monitor invocation that performs a move leaves the moved node with exactly
one attachment edge again: a node `d` is a CLUSTER-typed neighbor of the
moved node iff `d` is the newly chosen cluster, that cluster is indeed
CLUSTER-typed, and exactly one stored edge joins the node to it (never
two, never zero). -/
theorem move_unique_attachment (starts : Fin 5 → Fin 3) (s : FogState) (t : ℚ) (i j : Nat)
    (hr : Reachable starts s)
    (_hmob : (mcPostInit s).mgr.mobile_nodes.isEmpty = false)
    (hposs : (mcPossible s i).isEmpty = false) :
    (∀ d : String, attachB (movementCall s t i j).G (mcNode s i) d = true ↔ d = mcNew s i j) ∧
    typeOf (movementCall s t i j).G (mcNew s i j) = some "CLUSTER" ∧
    countPair (movementCall s t i j).G.edges (mcNode s i) (mcNew s i j) = 1 := by
  have hInv := inv_reachable hr
  obtain ⟨hInv', hatt, hty, hedge⟩ := move_core hInv t i j hposs
  exact ⟨hatt, hty, countPair_eq_one hInv'.at_most_one hedge⟩

/-- Witness for C3: from the all-at-`cluster_1` setup, the first move sends
`iot_0` to `cluster_2` and leaves it with exactly one attachment edge, to
`cluster_2`. -/
theorem move_unique_attachment_witness :
    (mcPostInit (initState startsW)).mgr.mobile_nodes.isEmpty = false ∧
    (mcPossible (initState startsW) 0).isEmpty = false ∧
    countPair (movementCall (initState startsW) 5 0 0).G.edges
      (mcNode (initState startsW) 0) (mcNew (initState startsW) 0 0) = 1 ∧
    (∀ d : String, attachB (movementCall (initState startsW) 5 0 0).G
      (mcNode (initState startsW) 0) d = true ↔ d = mcNew (initState startsW) 0 0) :=
  ⟨by decide, by decide,
   (move_unique_attachment startsW (initState startsW) 5 0 0 (reachable_refl startsW)
      (by decide) (by decide)).2.2,
   (move_unique_attachment startsW (initState startsW) 5 0 0 (reachable_refl startsW)
      (by decide) (by decide)).1⟩

/-! ## Claim C9 -/

/-- C9: in every recorded event log of a reachable state, the log starts
with the INITIAL records (one per mobile node, at time 0, naming its
starting cluster, in order), and the whole log replays consistently:
`chainOK` checks that each node's first record is an INITIAL at time 0 and
that every MOVE record's `from` field equals the location established by
that node's most recent earlier record, so the log alone reconstructs each
node's placement at every point. -/
theorem log_reconstructs_placement (starts : Fin 5 → Fin 3) (s : FogState)
    (hr : Reachable starts s) :
    chainOK s.log = true ∧ s.log.take 5 = initLog starts := by
  have hInv := inv_reachable hr
  refine ⟨hInv.chain_ok, ?_⟩
  obtain ⟨rest, hrest⟩ := hInv.log_shape
  rw [hrest]
  have h5 : (initLog starts).length = 5 := by simp [initLog]
  rw [← h5, List.take_left]

/-- Witness for C9 at the initial state itself. -/
theorem log_reconstructs_placement_witness :
    chainOK (initState startsW).log = true ∧
    (initState startsW).log.take 5 = initLog startsW :=
  log_reconstructs_placement startsW (initState startsW) (reachable_refl startsW)

/-! ## Claim C5 -/

/-- Counterexample to C5 as stated: adding an edge between `a` and `b`, which
are already joined, does *not* fail fast with a DuplicateEdge error — the
networkx-semantics `addEdge` of the code silently replaces the stored
attributes and the run continues, while the specification's fail-fast
`addEdgeSpec` would error. -/
theorem addEdge_duplicate_silent_counterexample :
    hasEdgeB gC5 "a" "b" = true ∧
    addEdgeSpec gC5 "a" "b" ⟨7, 7⟩ = Except.error GraphError.duplicateEdge ∧
    addEdge gC5 "a" "b" ⟨7, 7⟩ =
      ⟨[("a", leaderAttrs), ("b", clusterAttrs)], [("a", "b", ⟨7, 7⟩)]⟩ := by
  refine ⟨rfl, ?_, rfl⟩
  unfold addEdgeSpec
  rw [if_pos (show hasEdgeB gC5 "a" "b" = true from rfl)]

/-- C5, amended by the counterexample: adding an edge between a pair that
already has one silently updates the stored attributes — the pair list is
unchanged and no second edge is created, with no error raised — and in every
reachable simulation state at most one edge joins any unordered pair of
nodes. -/
theorem addEdge_silent_update_at_most_one_edge (g : Graph) (a b : String) (attrs : EdgeAttrs)
    (hdup : hasEdgeB g a b = true) (starts : Fin 5 → Fin 3) (s : FogState)
    (hr : Reachable starts s) :
    (addEdge g a b attrs).edges.map (fun e => (e.1, e.2.1)) =
      g.edges.map (fun e => (e.1, e.2.1)) ∧
    (addEdge g a b attrs).edges.length = g.edges.length ∧
    ∀ x y : String, countPair s.G.edges x y ≤ 1 := by
  have hedges := addEdge_edges g a b attrs
  rw [if_pos hdup] at hedges
  refine ⟨?_, ?_, (inv_reachable hr).at_most_one⟩
  · rw [hedges, List.map_map]
    refine List.map_congr_left ?_
    intro e _
    by_cases hc : pairEqB e a b = true <;> simp [Function.comp, hc]
  · rw [hedges, List.length_map]

/-- Witness for the amended C5. -/
theorem addEdge_silent_update_witness :
    hasEdgeB gC5 "a" "b" = true ∧
    (addEdge gC5 "a" "b" ⟨7, 7⟩).edges.map (fun e => (e.1, e.2.1)) =
      gC5.edges.map (fun e => (e.1, e.2.1)) ∧
    countPair (initState startsW).G.edges "iot_0" "cluster_1" ≤ 1 :=
  ⟨rfl,
   (addEdge_silent_update_at_most_one_edge gC5 "a" "b" ⟨7, 7⟩ rfl startsW
      (initState startsW) (reachable_refl startsW)).1,
   (addEdge_silent_update_at_most_one_edge gC5 "a" "b" ⟨7, 7⟩ rfl startsW
      (initState startsW) (reachable_refl startsW)).2.2 "iot_0" "cluster_1"⟩
